import Mathlib

/-!
Verification of the nested-function-removal (closure-elimination) pass
found in `compiler/traversals/removeNestedFunctions.cpp`.

The development shallowly embeds the pass:

* the AST is a single inductive `Chapel.Expr`; statement lists and actual
  argument lists are encoded as `consE`/`nilE` chains (mirroring `AList`),
  a statement being an expression in a body chain (`ExprStmt` is elided);
* symbols (`Symbol*`, `FnSymbol*`) are natural numbers; a symbol table
  `SymTbl` supplies each symbol's name and declared type;
* the mutable traversal state of `RemoveNestedFunctions` (the map
  `_nested_func_sym_map`, the vector `_fn_call_worklist`, the list
  `_fn_stmts_completed_so_far`) is threaded explicitly as `PassState`;
  fresh symbols created by `copy(true)` / `Symboltable::defineParam` are
  drawn from a counter;
* the capture-set map `_nested_func_args_map` computed by the analysis is
  an association list passed to the rewrite functions;
* the post-order single-pass traversal driven by the external `Traversal`
  framework is the structural recursion `proc`, dispatching on a `Mode`
  (expression, actual-argument list, or statement list together with the
  flag telling whether the list is the body of an enclosing function,
  which is what `hasEnclosingFunction` tests via `parentSymbol`).

The fixed-point capture analysis of `enclVarUsesHelper` is embedded in
namespace `CaptureAnalysis` further below; the per-function fresh
variable-uses computation (`FindEnclosingScopeVarUses`) lives in a source
file that is not part of the repository snapshot and is modelled from the
specification.
-/

namespace Chapel

/-- Association-list lookup, mirroring `Map::get` (returns NULL when the
key is absent; `put` prepends, so the newest binding wins). -/
def lookupA {α : Type} : List (Nat × α) → Nat → Option α
  | [], _ => none
  | (k, v) :: rest, x => if k = x then some v else lookupA rest x

/-- `Vec::add_exclusive`: append an element only if it is not yet present. -/
def addExcl (l : List Nat) (x : Nat) : List Nat :=
  if x ∈ l then l else l ++ [x]

/-- Parameter-passing intent of a formal (`defineParam` uses INTENT_INOUT). -/
inductive Intent where
  | inoutI : Intent
  | blankI : Intent
deriving DecidableEq, Repr

/-- A formal parameter: its (fresh) symbol, its name, its type, its intent. -/
structure Formal where
  fsym : Nat
  fname : Nat
  ftype : Nat
  fintent : Intent
deriving DecidableEq, Repr

/-- The AST.  `symE` is a `SymExpr`; `callE b args` is a `CallExpr` whose
`baseExpr` statically resolves to function symbol `b` (`findFnSymbol`) and
whose `argList` is the chain `args`; `defE f fs body` is a `DefExpr`
defining function symbol `f` with formals `fs` and body chain `body`.
`nilE`/`consE` build statement and argument chains. -/
inductive Expr where
  | symE : Nat → Expr
  | callE : Nat → Expr → Expr
  | defE : Nat → List Formal → Expr → Expr
  | nilE : Expr
  | consE : Expr → Expr → Expr
deriving DecidableEq, Repr

/-- Symbol table access: name and declared type of a symbol. -/
structure SymTbl where
  nameOf : Nat → Nat
  typeOf : Nat → Nat

/-- The mutable state of `RemoveNestedFunctions`:
`symMap` is `_nested_func_sym_map` (old function symbol to new one),
`worklist` is `_fn_call_worklist`,
`completed` is `_fn_stmts_completed_so_far` (the lifted copies, in
visitation order; these are also the statements inserted at the tail of
the module's statement list),
`fresh` is the supply of fresh symbols, and
`errors` counts attempts to read a capture set the analysis never
computed (a NULL dereference in the C++). -/
structure PassState where
  symMap : List (Nat × Nat)
  worklist : List Nat
  completed : List Expr
  fresh : Nat
  errors : Nat
deriving DecidableEq, Repr

/-- Substitute symbols per `m` (first binding wins), or keep the symbol. -/
def substSym (m : List (Nat × Nat)) (s : Nat) : Nat :=
  (lookupA m s).getD s

/-- The `UpdateSymbols` traversal: replace every `SymExpr` symbol (so in
particular every call target) according to the map. -/
def updE (m : List (Nat × Nat)) : Expr → Expr
  | Expr.symE s => Expr.symE (substSym m s)
  | Expr.callE b args => Expr.callE (substSym m b) (updE m args)
  | Expr.defE f fs body => Expr.defE f fs (updE m body)
  | Expr.nilE => Expr.nilE
  | Expr.consE a b => Expr.consE (updE m a) (updE m b)

/-- Does symbol `s` occur as a `SymExpr` (including as a call target)? -/
def occursSym (s : Nat) : Expr → Bool
  | Expr.symE t => t = s
  | Expr.callE b args => b = s || occursSym s args
  | Expr.defE _ _ body => occursSym s body
  | Expr.nilE => false
  | Expr.consE a b => occursSym s a || occursSym s b

/-- Chain to list. -/
def elems : Expr → List Expr
  | Expr.nilE => []
  | Expr.consE a b => a :: elems b
  | e => [e]

/-- List to chain. -/
def ofList : List Expr → Expr
  | [] => Expr.nilE
  | e :: rest => Expr.consE e (ofList rest)

/-- Append two chains (`AList::insertAtTail`, iterated). -/
def appendChain : Expr → Expr → Expr
  | Expr.nilE, l => l
  | Expr.consE a b, l => Expr.consE a (appendChain b l)
  | e, _ => e

/-- Is this expression a proper `nilE`-terminated chain? -/
def isChain : Expr → Bool
  | Expr.nilE => true
  | Expr.consE _ b => isChain b
  | _ => false

/-- The formals list of a `DefExpr`, empty otherwise. -/
def formalsOf : Expr → List Formal
  | Expr.defE _ fs _ => fs
  | _ => []

/-- The argument chain of a `CallExpr`. -/
def argsOf : Expr → Expr
  | Expr.callE _ args => args
  | e => e

/-- The call target of a `CallExpr`. -/
def baseOf : Expr → Nat
  | Expr.callE b _ => b
  | _ => 0

/-- The formals created by `addNestedFuncFormals`:
one per captured variable, in capture order, each a fresh symbol created
by `Symboltable::defineParam(INTENT_INOUT, sym->name, NULL, NULL)` whose
type is then set to the captured variable's type. -/
def buildFormals (tbl : SymTbl) : Nat → List Nat → List Formal
  | _, [] => []
  | n, c :: cs =>
    ⟨n, tbl.nameOf c, tbl.typeOf c, Intent.inoutI⟩ :: buildFormals tbl (n + 1) cs

/-- The local `update_map` of `addNestedFuncFormals`: each captured
variable mapped to the symbol of its new formal. -/
def capsUpdMap : Nat → List Nat → List (Nat × Nat)
  | _, [] => []
  | n, c :: cs => (c, n) :: capsUpdMap (n + 1) cs

/-- `RemoveNestedFunctions::addNestedFuncFormals`, applied to the copied
definition: record the old-to-new function symbol association in
`_nested_func_sym_map`, append one formal per captured variable, and (when
the capture set is non-empty) rewrite the body with `UpdateSymbols` so
captured variables refer to the new formals. -/
def addNestedFuncFormals (tbl : SymTbl) (st : PassState) (e : Expr)
    (caps : List Nat) (oldSym : Nat) : PassState × Expr :=
  match e with
  | Expr.defE f fs body =>
    let st1 : PassState := { st with symMap := (oldSym, f) :: st.symMap }
    let newFormals := buildFormals tbl st1.fresh caps
    let updMap := capsUpdMap st1.fresh caps
    let st2 : PassState := { st1 with fresh := st1.fresh + caps.length }
    let body1 := if caps.length = 0 then body else updE updMap body
    (st2, Expr.defE f (fs ++ newFormals) body1)
  | _ => (st, e)

/-- `RemoveNestedFunctions::addNestedFuncActuals`: append one actual per
captured variable (a `SymExpr` of the original outer variable), then
either redirect the call to the already-created new function symbol or
record the old symbol in `_fn_call_worklist`. -/
def addNestedFuncActuals (st : PassState) (b : Nat) (args : Expr)
    (caps : List Nat) : PassState × Expr :=
  let args1 := appendChain args (ofList (caps.map Expr.symE))
  match lookupA st.symMap b with
  | some ns => (st, Expr.callE ns args1)
  | none => ({ st with worklist := addExcl st.worklist b }, Expr.callE b args1)

/-- `RemoveNestedFunctions::postProcessExpr`: act only on a `CallExpr`
whose resolved function symbol has an entry in `_nested_func_args_map`. -/
def postProcessExpr (A : List (Nat × List Nat)) (st : PassState) :
    Expr → PassState × Expr
  | Expr.callE b args =>
    match lookupA A b with
    | some caps => addNestedFuncActuals st b args caps
    | none => (st, Expr.callE b args)
  | e => (st, e)

/-- Traversal mode: a single expression, an actual-argument chain, or a
statement chain (with the flag of `hasEnclosingFunction`: is this chain
the body of a function, i.e. is `parentSymbol` a `FnSymbol`?). -/
inductive Mode where
  | expr : Mode
  | args : Mode
  | stmts : Bool → Mode
deriving DecidableEq, Repr

/-- The state effect of lifting one nested definition, given the result
`r` of traversing its body: draw a fresh symbol for the copy, run
`addNestedFuncFormals` on the copy, append the copy to the completed
statements (it is also inserted at the module tail), and, when the old
symbol is in the worklist, replay `UpdateSymbols` with
`_nested_func_sym_map` over every statement completed so far. -/
def liftState (tbl : SymTbl) (f : Nat) (fs : List Formal) (caps : List Nat)
    (r : PassState × Expr) : PassState :=
  let newSym := r.1.fresh
  let stA : PassState := { r.1 with fresh := r.1.fresh + 1 }
  let lifted := addNestedFuncFormals tbl stA (Expr.defE newSym fs r.2) caps f
  let stB : PassState :=
    { lifted.1 with completed := lifted.1.completed ++ [lifted.2] }
  if f ∈ stB.worklist
  then { stB with completed := stB.completed.map (updE stB.symMap) }
  else stB

/-- The single-pass post-order rewrite traversal.  Expressions are
post-processed with `postProcessExpr` after their children; a statement
that is a nested function definition is post-processed as in
`postProcessStmt`: copy the definition (with a fresh function symbol),
add the new formals, insert the copy at the tail of the module statement
list (`completed`), replay `UpdateSymbols` over all statements completed
so far when the old symbol is in the worklist, and remove the original
definition.  A nested definition whose capture set was never computed
increments `errors` (a NULL dereference in the C++) and is left alone. -/
def proc (A : List (Nat × List Nat)) (tbl : SymTbl) :
    Mode → PassState → Expr → PassState × Expr
  | Mode.expr, st, Expr.symE s => (st, Expr.symE s)
  | Mode.expr, st, Expr.callE b args =>
    let r := proc A tbl Mode.args st args
    postProcessExpr A r.1 (Expr.callE b r.2)
  | Mode.expr, st, Expr.defE f fs body =>
    let r := proc A tbl (Mode.stmts true) st body
    (r.1, Expr.defE f fs r.2)
  | Mode.expr, st, Expr.nilE => (st, Expr.nilE)
  | Mode.expr, st, Expr.consE a b =>
    let r1 := proc A tbl Mode.expr st a
    let r2 := proc A tbl Mode.expr r1.1 b
    (r2.1, Expr.consE r1.2 r2.2)
  | Mode.args, st, Expr.nilE => (st, Expr.nilE)
  | Mode.args, st, Expr.consE a rest =>
    let r1 := proc A tbl Mode.expr st a
    let r2 := proc A tbl Mode.args r1.1 rest
    (r2.1, Expr.consE r1.2 r2.2)
  | Mode.args, st, e => (st, e)
  | Mode.stmts _, st, Expr.nilE => (st, Expr.nilE)
  | Mode.stmts inFn, st, Expr.consE (Expr.defE f fs body) rest =>
    let r := proc A tbl (Mode.stmts true) st body
    if inFn then
      match lookupA A f with
      | none =>
        let st2 : PassState := { r.1 with errors := r.1.errors + 1 }
        let r2 := proc A tbl (Mode.stmts inFn) st2 rest
        (r2.1, Expr.consE (Expr.defE f fs r.2) r2.2)
      | some caps =>
        let stC := liftState tbl f fs caps r
        let r2 := proc A tbl (Mode.stmts inFn) stC rest
        (r2.1, r2.2)
    else
      let r2 := proc A tbl (Mode.stmts inFn) r.1 rest
      (r2.1, Expr.consE (Expr.defE f fs r.2) r2.2)
  | Mode.stmts inFn, st, Expr.consE s rest =>
    let r1 := proc A tbl Mode.expr st s
    let r2 := proc A tbl (Mode.stmts inFn) r1.1 rest
    (r2.1, Expr.consE r1.2 r2.2)
  | Mode.stmts _, st, e => (st, e)

/-- Initial state of a run (`fresh` seeds the fresh-symbol supply). -/
def initState (n : Nat) : PassState := ⟨[], [], [], n, 0⟩

/-- Run the rewrite traversal over a module statement chain (the module
itself has no enclosing function). -/
def runRewrite (A : List (Nat × List Nat)) (tbl : SymTbl) (n : Nat)
    (m : Expr) : PassState × Expr :=
  proc A tbl (Mode.stmts false) (initState n) m

/-- The rewritten module: the traversed original statements followed by
the lifted copies inserted at the tail of the module statement list. -/
def runPassModule (A : List (Nat × List Nat)) (tbl : SymTbl) (n : Nat)
    (m : Expr) : Expr :=
  let r := runRewrite A tbl n m
  appendChain r.2 (ofList r.1.completed)

/-- The function symbols of definitions classified as nested — the
predicate of `hasEnclosingFunction`: the definition's `parentSymbol` is a
`FnSymbol`.  The flag says whether we are currently inside a function. -/
def nestedDefSyms (inFn : Bool) : Expr → List Nat
  | Expr.symE _ => []
  | Expr.callE _ args => nestedDefSyms inFn args
  | Expr.defE f _ body => (if inFn then [f] else []) ++ nestedDefSyms true body
  | Expr.nilE => []
  | Expr.consE a b => nestedDefSyms inFn a ++ nestedDefSyms inFn b

/-- The upfront enumeration of `enclVarUsesHelper`: one capture-set entry
per nested function (`capsOf` abstracts the computed capture contents). -/
def analyze (capsOf : Nat → List Nat) (m : Expr) : List (Nat × List Nat) :=
  (nestedDefSyms false m).map (fun f => (f, capsOf f))

/-- One full run of the pass: analysis, then the rewrite traversal. -/
def runPass (capsOf : Nat → List Nat) (tbl : SymTbl) (n : Nat) (m : Expr) :
    Expr :=
  runPassModule (analyze capsOf m) tbl n m

/-- No `defE` occurs anywhere in the expression. -/
def defFree : Expr → Bool
  | Expr.symE _ => true
  | Expr.callE _ args => defFree args
  | Expr.defE _ _ _ => false
  | Expr.nilE => true
  | Expr.consE a b => defFree a && defFree b

/-- Well-formedness.  `goodB true e`: `e` is a proper statement chain of
well-formed statements.  `goodB false e`: `e` is a well-formed statement:
a symbol, a call whose arguments are definition-free (function
definitions occur only in statement position), or a function definition
with a well-formed body chain. -/
def goodB : Bool → Expr → Bool
  | true, Expr.nilE => true
  | true, Expr.consE s rest => goodB false s && goodB true rest
  | true, _ => false
  | false, Expr.symE _ => true
  | false, Expr.callE _ args => defFree args
  | false, Expr.defE _ _ body => goodB true body
  | false, _ => false

end Chapel

namespace Chapel

/-! ### Basic lemmas about chains, maps and the helper functions -/

theorem elems_ofList (l : List Expr) : elems (ofList l) = l := by
  induction l with
  | nil => rfl
  | cons a rest ih => simp [ofList, elems, ih]

theorem appendChain_nil (e : Expr) : appendChain e Expr.nilE = e := by
  induction e with
  | consE a b iha ihb => simp [appendChain, ihb]
  | nilE => rfl
  | symE s => rfl
  | callE b args ih => rfl
  | defE f fs body ih => rfl

theorem elems_appendChain (c d : Expr) (h : isChain c = true) :
    elems (appendChain c d) = elems c ++ elems d := by
  induction c with
  | nilE => simp [appendChain, elems]
  | consE a b iha ihb =>
    simp only [isChain] at h
    simp [appendChain, elems, ihb h]
  | symE s => simp [isChain] at h
  | callE b args ih => simp [isChain] at h
  | defE f fs body ih => simp [isChain] at h

theorem buildFormals_length (tbl : SymTbl) (caps : List Nat) :
    ∀ n, (buildFormals tbl n caps).length = caps.length := by
  induction caps with
  | nil => intro n; rfl
  | cons c cs ih => intro n; simp [buildFormals, ih]

theorem buildFormals_getElem (tbl : SymTbl) (caps : List Nat) :
    ∀ n i c, caps[i]? = some c →
      (buildFormals tbl n caps)[i]? =
        some (Formal.mk (n + i) (tbl.nameOf c) (tbl.typeOf c) Intent.inoutI) := by
  induction caps with
  | nil => intro n i c h; simp at h
  | cons a cs ih =>
    intro n i c h
    cases i with
    | zero => simp at h; subst h; simp [buildFormals]
    | succ j =>
      simp only [List.getElem?_cons_succ] at h
      have hj := ih (n + 1) j c h
      have harith : n + 1 + j = n + (j + 1) := by omega
      rw [harith] at hj
      simpa [buildFormals] using hj

theorem capsUpdMap_isSome (caps : List Nat) :
    ∀ n c, c ∈ caps → (lookupA (capsUpdMap n caps) c).isSome = true := by
  induction caps with
  | nil => intro n c h; simp at h
  | cons a cs ih =>
    intro n c h
    by_cases hac : a = c
    · simp [capsUpdMap, lookupA, hac]
    · rcases List.mem_cons.mp h with h | h
      · exact absurd h.symm hac
      · simp [capsUpdMap, lookupA, hac, ih (n + 1) c h]

theorem capsUpdMap_value_ge (caps : List Nat) :
    ∀ n k v, lookupA (capsUpdMap n caps) k = some v → n ≤ v := by
  induction caps with
  | nil => intro n k v h; simp [capsUpdMap, lookupA] at h
  | cons a cs ih =>
    intro n k v h
    simp only [capsUpdMap, lookupA] at h
    by_cases hak : a = k
    · simp [hak] at h; omega
    · simp [hak] at h
      have := ih (n + 1) k v h
      omega

theorem capsUpdMap_getElem (caps : List Nat) (hnd : caps.Nodup) :
    ∀ n i c, caps[i]? = some c →
      lookupA (capsUpdMap n caps) c = some (n + i) := by
  induction caps with
  | nil => intro n i c h; simp at h
  | cons a cs ih =>
    intro n i c h
    cases i with
    | zero =>
      simp at h; subst h
      simp [capsUpdMap, lookupA]
    | succ j =>
      simp only [List.getElem?_cons_succ] at h
      have hmem : c ∈ cs := List.getElem?_mem h
      have hane : a ≠ c := by
        intro hac
        subst hac
        exact (List.nodup_cons.mp hnd).1 hmem
      have := ih (List.nodup_cons.mp hnd).2 (n + 1) j c h
      simp [capsUpdMap, lookupA, hane, this]
      omega

theorem occursSym_updE (m : List (Nat × Nat)) (s : Nat)
    (hv : ∀ k v, lookupA m k = some v → v ≠ s)
    (hs : (lookupA m s).isSome = true) :
    ∀ e, occursSym s (updE m e) = false := by
  intro e
  induction e with
  | symE t =>
    cases h : lookupA m t with
    | none =>
      have hts : t ≠ s := by
        intro hts; subst hts; simp [h] at hs
      simp [updE, occursSym, substSym, h, hts]
    | some v => simp [updE, occursSym, substSym, h, hv t v h]
  | callE b args ih =>
    cases h : lookupA m b with
    | none =>
      have hbs : b ≠ s := by
        intro hbs; subst hbs; simp [h] at hs
      simp [updE, occursSym, substSym, h, hbs, ih]
    | some v => simp [updE, occursSym, substSym, h, hv b v h, ih]
  | defE f fs body ih => simpa [updE, occursSym] using ih
  | nilE => rfl
  | consE a b iha ihb => simp [updE, occursSym, iha, ihb]

theorem nestedDefSyms_updE (m : List (Nat × Nat)) :
    ∀ e b, nestedDefSyms b (updE m e) = nestedDefSyms b e := by
  intro e
  induction e with
  | symE s => intro b; rfl
  | callE c args ih => intro b; simp [updE, nestedDefSyms, ih]
  | defE f fs body ih => intro b; simp [updE, nestedDefSyms, ih]
  | nilE => intro b; rfl
  | consE x y ihx ihy => intro b; simp [updE, nestedDefSyms, ihx, ihy]

theorem defFree_nestedDefSyms {e : Expr} (h : defFree e = true) :
    ∀ b, nestedDefSyms b e = [] := by
  induction e with
  | symE s => intro b; rfl
  | callE c args ih =>
    intro b
    simp only [defFree] at h
    simp [nestedDefSyms, ih h]
  | defE f fs body ih => simp [defFree] at h
  | nilE => intro b; rfl
  | consE x y ihx ihy =>
    intro b
    simp only [defFree, Bool.and_eq_true] at h
    simp [nestedDefSyms, ihx h.1, ihy h.2]

theorem defFree_appendChain {c d : Expr} (hc : defFree c = true)
    (hd : defFree d = true) : defFree (appendChain c d) = true := by
  induction c with
  | nilE => simpa [appendChain] using hd
  | consE a b iha ihb =>
    simp only [defFree, Bool.and_eq_true] at hc
    simp [appendChain, defFree, hc.1, ihb hc.2]
  | symE s => simpa [appendChain] using hc
  | callE b args ih => simpa [appendChain] using hc
  | defE f fs body ih => simp [defFree] at hc

theorem defFree_ofList_symE (l : List Nat) :
    defFree (ofList (l.map Expr.symE)) = true := by
  induction l with
  | nil => rfl
  | cons a rest ih => simp [ofList, defFree, ih]

theorem lookupA_analyze_isSome (capsOf : Nat → List Nat) (l : List Nat)
    {f : Nat} (h : f ∈ l) :
    (lookupA (l.map (fun g => (g, capsOf g))) f).isSome = true := by
  induction l with
  | nil => simp at h
  | cons a rest ih =>
    by_cases haf : a = f
    · simp [lookupA, haf]
    · rcases List.mem_cons.mp h with h | h
      · exact absurd h.symm haf
      · simp [lookupA, haf, ih h]

theorem lookupA_cons_isSome {α : Type} (m : List (Nat × α)) (p : Nat × α)
    {k : Nat} (h : (lookupA m k).isSome = true) :
    (lookupA (p :: m) k).isSome = true := by
  by_cases hpk : p.1 = k
  · simp [lookupA, hpk]
  · simpa [lookupA, hpk] using h

theorem addExcl_mem (l : List Nat) (x a : Nat) (h : a ∈ l) :
    a ∈ addExcl l x := by
  unfold addExcl
  split
  · exact h
  · exact List.mem_append_left _ h

end Chapel


namespace Chapel

/-! ### Equation lemmas and state-effect lemmas for the rewrite step -/

theorem addNestedFuncFormals_eq (tbl : SymTbl) (st : PassState) (f : Nat)
    (fs : List Formal) (body : Expr) (caps : List Nat) (old : Nat) :
    addNestedFuncFormals tbl st (Expr.defE f fs body) caps old
      = ({ st with symMap := (old, f) :: st.symMap,
                   fresh := st.fresh + caps.length },
         Expr.defE f (fs ++ buildFormals tbl st.fresh caps)
           (if caps.length = 0 then body
            else updE (capsUpdMap st.fresh caps) body)) := rfl

theorem liftState_worklist (tbl : SymTbl) (f : Nat) (fs : List Formal)
    (caps : List Nat) (r : PassState × Expr) :
    (liftState tbl f fs caps r).worklist = r.1.worklist := by
  simp only [liftState, addNestedFuncFormals_eq]
  split <;> rfl

theorem liftState_errors (tbl : SymTbl) (f : Nat) (fs : List Formal)
    (caps : List Nat) (r : PassState × Expr) :
    (liftState tbl f fs caps r).errors = r.1.errors := by
  simp only [liftState, addNestedFuncFormals_eq]
  split <;> rfl

theorem liftState_symMap (tbl : SymTbl) (f : Nat) (fs : List Formal)
    (caps : List Nat) (r : PassState × Expr) :
    (liftState tbl f fs caps r).symMap = (f, r.1.fresh) :: r.1.symMap := by
  simp only [liftState, addNestedFuncFormals_eq]
  split <;> rfl

theorem liftState_clean (tbl : SymTbl) (f : Nat) (fs : List Formal)
    (caps : List Nat) (r : PassState × Expr)
    (hc : ∀ c ∈ r.1.completed, nestedDefSyms false c = [])
    (hb : nestedDefSyms true r.2 = []) :
    ∀ c ∈ (liftState tbl f fs caps r).completed, nestedDefSyms false c = [] := by
  have hbody2 : nestedDefSyms true
      (if caps.length = 0 then r.2
       else updE (capsUpdMap (r.1.fresh + 1) caps) r.2) = [] := by
    split
    · exact hb
    · rw [nestedDefSyms_updE]; exact hb
  have hcopy : nestedDefSyms false
      (Expr.defE r.1.fresh (fs ++ buildFormals tbl (r.1.fresh + 1) caps)
        (if caps.length = 0 then r.2
         else updE (capsUpdMap (r.1.fresh + 1) caps) r.2)) = [] := hbody2
  simp only [liftState, addNestedFuncFormals_eq]
  split
  · intro c hcm
    simp only [List.mem_map] at hcm
    obtain ⟨c0, hc0, hceq⟩ := hcm
    subst hceq
    rw [nestedDefSyms_updE]
    rcases List.mem_append.mp hc0 with h0 | h0
    · exact hc c0 h0
    · rw [List.mem_singleton.mp h0]
      exact hcopy
  · intro c hcm
    rcases List.mem_append.mp hcm with h0 | h0
    · exact hc c h0
    · rw [List.mem_singleton.mp h0]
      exact hcopy

theorem addNestedFuncActuals_worklist (st : PassState) (b : Nat) (args : Expr)
    (caps : List Nat) (x : Nat) (h : x ∈ st.worklist) :
    x ∈ (addNestedFuncActuals st b args caps).1.worklist := by
  unfold addNestedFuncActuals
  cases hl : lookupA st.symMap b with
  | some ns => simpa using h
  | none => simpa using addExcl_mem _ b x h

theorem postProcessExpr_worklist (A : List (Nat × List Nat)) (st : PassState)
    (e : Expr) (x : Nat) (h : x ∈ st.worklist) :
    x ∈ (postProcessExpr A st e).1.worklist := by
  cases e with
  | callE b args =>
    simp only [postProcessExpr]
    cases hl : lookupA A b with
    | some caps => exact addNestedFuncActuals_worklist st b args caps x h
    | none => simpa using h
  | symE s => simpa [postProcessExpr] using h
  | defE f fs body => simpa [postProcessExpr] using h
  | nilE => simpa [postProcessExpr] using h
  | consE a b => simpa [postProcessExpr] using h

/-- The worklist `_fn_call_worklist` only ever grows during the rewrite
traversal: symbols are added by `addNestedFuncActuals` and never removed
(there is no removal anywhere in the pass). -/
theorem proc_worklist_mono (A : List (Nat × List Nat)) (tbl : SymTbl) :
    ∀ (e : Expr) (mode : Mode) (st : PassState) (x : Nat),
      x ∈ st.worklist → x ∈ (proc A tbl mode st e).1.worklist := by
  intro e
  induction e with
  | symE s =>
    intro mode st x hx
    rcases mode with _ | _ | inFn <;> simpa [proc] using hx
  | callE b args ih =>
    intro mode st x hx
    rcases mode with _ | _ | inFn
    · simp only [proc]
      exact postProcessExpr_worklist A _ _ x (ih Mode.args st x hx)
    · simpa [proc] using hx
    · simpa [proc] using hx
  | defE f fs body ih =>
    intro mode st x hx
    rcases mode with _ | _ | inFn
    · simp only [proc]
      exact ih (Mode.stmts true) st x hx
    · simpa [proc] using hx
    · simpa [proc] using hx
  | nilE =>
    intro mode st x hx
    rcases mode with _ | _ | inFn <;> simpa [proc] using hx
  | consE a rest iha ihrest =>
    intro mode st x hx
    rcases mode with _ | _ | inFn
    · simp only [proc]
      exact ihrest Mode.expr _ x (iha Mode.expr st x hx)
    · simp only [proc]
      exact ihrest Mode.args _ x (iha Mode.expr st x hx)
    · cases a with
      | defE f fs body =>
        have hbody : ∀ (st1 : PassState) (y : Nat), y ∈ st1.worklist →
            y ∈ (proc A tbl (Mode.stmts true) st1 body).1.worklist := by
          intro st1 y hy
          have h2 := iha Mode.expr st1 y hy
          simpa only [proc] using h2
        simp only [proc]
        cases inFn with
        | false =>
          exact ihrest (Mode.stmts false) _ x (hbody st x hx)
        | true =>
          cases hf : lookupA A f with
          | none =>
            simp only [hf]
            exact ihrest (Mode.stmts true) _ x (hbody st x hx)
          | some caps =>
            simp only [hf]
            refine ihrest (Mode.stmts true) _ x ?_
            rw [liftState_worklist]
            exact hbody st x hx
      | symE s =>
        simp only [proc]
        exact ihrest (Mode.stmts inFn) _ x (iha Mode.expr st x hx)
      | callE b args =>
        simp only [proc]
        exact ihrest (Mode.stmts inFn) _ x (iha Mode.expr st x hx)
      | nilE =>
        simp only [proc]
        exact ihrest (Mode.stmts inFn) _ x (iha Mode.expr st x hx)
      | consE u v =>
        simp only [proc]
        exact ihrest (Mode.stmts inFn) _ x (iha Mode.expr st x hx)

end Chapel

namespace Chapel

/-! ### Concrete scenario programs -/

/-- A symbol table where every symbol is its own name and type. -/
def tblId : SymTbl := ⟨fun s => s, fun s => s⟩

/-- Scenario A of the specification: a top-level function `f` (symbol 3)
containing a nested function `g` (symbol 2) that reads the outer variable
`x` (symbol 1), with one call to `g` before and one after its
definition.  The capture analysis gives `g` the capture set `[1]`. -/
def scenarioA : Expr :=
  ofList [Expr.defE 3 [] (ofList
    [Expr.callE 2 Expr.nilE,
     Expr.defE 2 [] (ofList [Expr.symE 1]),
     Expr.callE 2 Expr.nilE])]

/-- A self-recursive nested function: `g` (symbol 2) captures `x`
(symbol 1) and calls itself in its own body, inside top-level `f`
(symbol 3); `f` calls `g` after the definition. -/
def scenarioRec : Expr :=
  ofList [Expr.defE 3 [] (ofList
    [Expr.defE 2 [] (ofList [Expr.callE 2 Expr.nilE]),
     Expr.callE 2 Expr.nilE])]

/-- Scenario B of the specification, with a call before the definition:
nested `g` (symbol 2) captures nothing, and is called once before and
once after its definition inside top-level `f` (symbol 3). -/
def scenarioB : Expr :=
  ofList [Expr.defE 3 [] (ofList
    [Expr.callE 2 Expr.nilE,
     Expr.defE 2 [] Expr.nilE,
     Expr.callE 2 Expr.nilE])]

/-! ### Claim C1: parameter/argument parity -/

/-- C1.  For a lifted nested function, `addNestedFuncFormals` appends
exactly one formal per `CaptureSet` entry (the lifted copy's formal count
is the original count plus the capture-set length), and for a call site
`addNestedFuncActuals` appends exactly one actual per `CaptureSet` entry,
positionally in capture-set order, placed after the call's original
arguments. -/
theorem addNestedFunc_parity (tbl : SymTbl) (st st2 : PassState) (f : Nat)
    (fs : List Formal) (body : Expr) (caps : List Nat) (old b : Nat)
    (args : Expr) (hchain : isChain args = true) :
    (formalsOf (addNestedFuncFormals tbl st (Expr.defE f fs body) caps old).2).length
        = fs.length + caps.length
    ∧ elems (argsOf (addNestedFuncActuals st2 b args caps).2)
        = elems args ++ caps.map Expr.symE
    ∧ (elems (argsOf (addNestedFuncActuals st2 b args caps).2)).length
        = (elems args).length + caps.length := by
  have hargs : elems (appendChain args (ofList (caps.map Expr.symE)))
      = elems args ++ caps.map Expr.symE := by
    rw [elems_appendChain _ _ hchain, elems_ofList]
  refine ⟨?_, ?_, ?_⟩
  · simp [addNestedFuncFormals_eq, formalsOf, buildFormals_length]
  · unfold addNestedFuncActuals
    cases hl : lookupA st2.symMap b <;> simp [argsOf, hargs]
  · unfold addNestedFuncActuals
    cases hl : lookupA st2.symMap b <;> simp [argsOf, hargs]

theorem addNestedFunc_parity_witness :
    (formalsOf (addNestedFuncFormals tblId (initState 20)
        (Expr.defE 7 [] Expr.nilE) [1] 4).2).length = 0 + 1
    ∧ elems (argsOf (addNestedFuncActuals (initState 30) 9 Expr.nilE [1]).2)
        = elems Expr.nilE ++ [1].map Expr.symE
    ∧ (elems (argsOf (addNestedFuncActuals (initState 30) 9 Expr.nilE [1]).2)).length
        = (elems Expr.nilE).length + 1 :=
  addNestedFunc_parity tblId (initState 20) (initState 30) 7 [] Expr.nilE
    [1] 4 9 Expr.nilE (by decide)

/-! ### Claim C10: calls to functions without a capture-set entry -/

/-- C10.  `postProcessExpr` leaves a call completely unchanged (same
target, same argument list, same state) when the resolved target has no
entry in `_nested_func_args_map`. -/
theorem postProcessExpr_nonnested_frame (A : List (Nat × List Nat))
    (st : PassState) (b : Nat) (args : Expr) (h : lookupA A b = none) :
    postProcessExpr A st (Expr.callE b args) = (st, Expr.callE b args) := by
  simp [postProcessExpr, h]

theorem postProcessExpr_nonnested_frame_witness :
    postProcessExpr [(5, [1])] (initState 0) (Expr.callE 3 Expr.nilE)
      = (initState 0, Expr.callE 3 Expr.nilE) :=
  postProcessExpr_nonnested_frame [(5, [1])] (initState 0) 3 Expr.nilE
    (by decide)

/-! ### Claim C6: capture-to-formal correspondence inside the lifted copy -/

/-- C6.  `addNestedFuncFormals` appends exactly one new formal per
captured variable, in capture-set order: the formal at position `i` is
built from the captured variable at position `i`, carries intent
INTENT_INOUT and the captured variable's declared type; the update map
sends the `i`-th captured variable to the `i`-th new formal's symbol; and
after the body rewrite no reference to any captured variable remains in
the lifted body (every such reference was replaced by its formal). -/
theorem addNestedFuncFormals_captures_spec (tbl : SymTbl) (st : PassState)
    (f : Nat) (fs : List Formal) (body : Expr) (caps : List Nat) (old : Nat)
    (hnd : caps.Nodup) (hfr : ∀ c ∈ caps, c < st.fresh) :
    (addNestedFuncFormals tbl st (Expr.defE f fs body) caps old).2
      = Expr.defE f (fs ++ buildFormals tbl st.fresh caps)
          (if caps.length = 0 then body
           else updE (capsUpdMap st.fresh caps) body)
    ∧ (buildFormals tbl st.fresh caps).length = caps.length
    ∧ (∀ i c, caps[i]? = some c →
         (buildFormals tbl st.fresh caps)[i]?
           = some (Formal.mk (st.fresh + i) (tbl.nameOf c) (tbl.typeOf c)
               Intent.inoutI))
    ∧ (∀ i c, caps[i]? = some c →
         lookupA (capsUpdMap st.fresh caps) c = some (st.fresh + i))
    ∧ (∀ c ∈ caps, occursSym c
         (if caps.length = 0 then body
          else updE (capsUpdMap st.fresh caps) body) = false) := by
  refine ⟨by rw [addNestedFuncFormals_eq], buildFormals_length tbl caps st.fresh,
    fun i c h => buildFormals_getElem tbl caps st.fresh i c h,
    fun i c h => capsUpdMap_getElem caps hnd st.fresh i c h, ?_⟩
  intro c hc
  have hne : ¬ caps.length = 0 := by
    intro h0
    rw [List.length_eq_zero] at h0
    subst h0
    simp at hc
  rw [if_neg hne]
  refine occursSym_updE (capsUpdMap st.fresh caps) c ?_
    (capsUpdMap_isSome caps st.fresh c hc) body
  intro k v hkv
  have hge := capsUpdMap_value_ge caps st.fresh k v hkv
  have hlt := hfr c hc
  omega

theorem addNestedFuncFormals_captures_spec_witness :
    ([1].Nodup ∧ ∀ c ∈ [1], c < (initState 20).fresh)
    ∧ ((addNestedFuncFormals tblId (initState 20)
          (Expr.defE 7 [] (ofList [Expr.symE 1])) [1] 4).2
        = Expr.defE 7 ([] ++ buildFormals tblId 20 [1])
            (if List.length [1] = 0 then ofList [Expr.symE 1]
             else updE (capsUpdMap 20 [1]) (ofList [Expr.symE 1]))
      ∧ (buildFormals tblId 20 [1]).length = List.length [1]
      ∧ (∀ i c, [1][i]? = some c →
           (buildFormals tblId 20 [1])[i]?
             = some (Formal.mk (20 + i) (tblId.nameOf c) (tblId.typeOf c)
                 Intent.inoutI))
      ∧ (∀ i c, [1][i]? = some c →
           lookupA (capsUpdMap 20 [1]) c = some (20 + i))
      ∧ (∀ c ∈ [1], occursSym c
           (if List.length [1] = 0 then ofList [Expr.symE 1]
            else updE (capsUpdMap 20 [1]) (ofList [Expr.symE 1])) = false)) :=
  ⟨⟨by decide, by decide⟩,
   addNestedFuncFormals_captures_spec tblId (initState 20) 7 []
     (ofList [Expr.symE 1]) [1] 4 (by decide) (by decide)⟩

end Chapel

namespace Chapel

/-! ### Claim C2: Scenario A, evaluated -/

/-- C2, evaluated on Scenario A.  Both call sites do receive exactly one
extra actual `x`, and the call site after the definition is redirected to
the lifted symbol 10; but the call site before the definition keeps the
old target symbol 2 even though the lifted replacement of 2 was recorded:
the retroactive `UpdateSymbols` replay only walks
`_fn_stmts_completed_so_far`, which holds the lifted copies, never the
enclosing function's body, so the first call site is never corrected. -/
theorem scenarioA_first_call_target_stale :
    runPassModule [(2, [1])] tblId 10 scenarioA
      = ofList
          [Expr.defE 3 [] (ofList
             [Expr.callE 2 (ofList [Expr.symE 1]),
              Expr.callE 10 (ofList [Expr.symE 1])]),
           Expr.defE 10 [Formal.mk 11 1 1 Intent.inoutI]
             (ofList [Expr.symE 11])]
    ∧ lookupA (runRewrite [(2, [1])] tblId 10 scenarioA).1.symMap 2
        = some 10 :=
  ⟨rfl, rfl⟩

/-! ### Claim C3: the worklist is never cleared -/

/-- C3, counterexample.  After the run on `scenarioRec`, symbol 2 has
been lifted (its association 2 to 10 was recorded and the substitution
over the completed statements was performed, as witnessed by the call
target inside the lifted copy), yet 2 was never removed from
`_fn_call_worklist`: the pass checks membership with `Vec::in` but
contains no removal, so the claimed transition to a drained worklist
never happens. -/
theorem worklist_never_cleared_counterexample :
    lookupA (runRewrite [(2, [1])] tblId 10 scenarioRec).1.symMap 2 = some 10
    ∧ (runRewrite [(2, [1])] tblId 10 scenarioRec).1.completed
        = [Expr.defE 10 [Formal.mk 11 1 1 Intent.inoutI]
            (ofList [Expr.callE 10 (ofList [Expr.symE 11])])]
    ∧ (runRewrite [(2, [1])] tblId 10 scenarioRec).1.worklist = [2] :=
  ⟨rfl, rfl, rfl⟩

/-- C3, amended.  When the Lifter records a new old-to-new association
and the old symbol is in `_fn_call_worklist`, the pass does run the
`UpdateSymbols` substitution over every statement completed so far,
replacing the old symbol as a call target with the new one (first
conjunct, witnessed on `scenarioRec`: the self-call inside the lifted
copy was redirected from 2 to 10); but the old symbol is never removed
from the worklist (second conjunct of the concrete part), and the
worklist only ever grows during the whole traversal (final conjunct), so
per old symbol the states progress from unlifted to
lifted-with-pending-entry and the pending entry is permanent. -/
theorem ledger_substitution_amended :
    ((runRewrite [(2, [1])] tblId 10 scenarioRec).1.completed
        = [Expr.defE 10 [Formal.mk 11 1 1 Intent.inoutI]
            (ofList [Expr.callE 10 (ofList [Expr.symE 11])])]
      ∧ lookupA (runRewrite [(2, [1])] tblId 10 scenarioRec).1.symMap 2
          = some 10
      ∧ 2 ∈ (runRewrite [(2, [1])] tblId 10 scenarioRec).1.worklist)
    ∧ ∀ (A : List (Nat × List Nat)) (tbl : SymTbl) (e : Expr) (mode : Mode)
        (st : PassState) (x : Nat),
        x ∈ st.worklist → x ∈ (proc A tbl mode st e).1.worklist :=
  ⟨⟨rfl, rfl, by decide⟩,
   fun A tbl e mode st x hx => proc_worklist_mono A tbl e mode st x hx⟩

theorem ledger_substitution_amended_witness :
    5 ∈ (proc [] tblId Mode.expr (PassState.mk [] [5] [] 0 0)
          Expr.nilE).1.worklist :=
  ledger_substitution_amended.2 [] tblId Expr.nilE Mode.expr
    (PassState.mk [] [5] [] 0 0) 5 (by decide)

/-! ### Claim C7: empty capture set, evaluated -/

/-- C7, evaluated on Scenario B with a call before the definition.  The
nested function with an empty capture set is moved to top level with its
original (empty) formal list and unchanged body, and no call site
receives any extra argument; the call site after the definition is
redirected to the lifted symbol 10, but the call site before the
definition keeps the old target 2 — so not every call site is redirected
(same missing retroactive correction as in Scenario A). -/
theorem scenarioB_before_def_call_not_redirected :
    runPassModule [(2, [])] tblId 10 scenarioB
      = ofList
          [Expr.defE 3 [] (ofList
             [Expr.callE 2 Expr.nilE,
              Expr.callE 10 Expr.nilE]),
           Expr.defE 10 [] Expr.nilE]
    ∧ lookupA (runRewrite [(2, [])] tblId 10 scenarioB).1.symMap 2
        = some 10 :=
  ⟨rfl, rfl⟩

end Chapel

namespace Chapel

/-! ### Invariants for the module-wide traversal -/

/-- All statements completed so far contain no nested definitions. -/
def cleanSt (st : PassState) : Prop :=
  ∀ c ∈ st.completed, nestedDefSyms false c = []

/-- Every symbol in the list has an entry in the map. -/
def coveredBy {α : Type} (m : List (Nat × α)) (l : List Nat) : Prop :=
  ∀ f ∈ l, (lookupA m f).isSome = true

/-- Relation between the state before and after a traversal step: the
completed statements stay free of nested definitions, the error count is
unchanged, and every symbol resolvable in `_nested_func_sym_map` before
is still resolvable after (the map only receives new bindings). -/
def StOK (st1 st2 : PassState) : Prop :=
  cleanSt st2 ∧ st2.errors = st1.errors ∧
  ∀ k, (lookupA st1.symMap k).isSome = true →
    (lookupA st2.symMap k).isSome = true

theorem stOK_refl (st : PassState) (h : cleanSt st) : StOK st st :=
  ⟨h, rfl, fun _ hk => hk⟩

theorem stOK_trans {a b c : PassState} (h1 : StOK a b) (h2 : StOK b c) :
    StOK a c :=
  ⟨h2.1, h2.2.1.trans h1.2.1, fun k hk => h2.2.2 k (h1.2.2 k hk)⟩

theorem coveredBy_append {α : Type} (m : List (Nat × α)) (l1 l2 : List Nat)
    (h : coveredBy m (l1 ++ l2)) : coveredBy m l1 ∧ coveredBy m l2 :=
  ⟨fun f hf => h f (List.mem_append_left _ hf),
   fun f hf => h f (List.mem_append_right _ hf)⟩

theorem postProcessExpr_stFields (A : List (Nat × List Nat))
    (st : PassState) (e : Expr) :
    (postProcessExpr A st e).1.completed = st.completed
    ∧ (postProcessExpr A st e).1.errors = st.errors
    ∧ (postProcessExpr A st e).1.symMap = st.symMap := by
  cases e with
  | callE b args =>
    simp only [postProcessExpr]
    cases hl : lookupA A b with
    | none => exact ⟨rfl, rfl, rfl⟩
    | some caps =>
      unfold addNestedFuncActuals
      cases hl2 : lookupA st.symMap b with
      | some ns => exact ⟨rfl, rfl, rfl⟩
      | none => exact ⟨rfl, rfl, rfl⟩
  | symE s => exact ⟨rfl, rfl, rfl⟩
  | defE f fs body => exact ⟨rfl, rfl, rfl⟩
  | nilE => exact ⟨rfl, rfl, rfl⟩
  | consE a b => exact ⟨rfl, rfl, rfl⟩

theorem postProcessExpr_defFree (A : List (Nat × List Nat)) (st : PassState)
    (b : Nat) (args : Expr) (h : defFree args = true) :
    defFree (postProcessExpr A st (Expr.callE b args)).2 = true := by
  simp only [postProcessExpr]
  cases hl : lookupA A b with
  | none => exact h
  | some caps =>
    unfold addNestedFuncActuals
    cases hl2 : lookupA st.symMap b with
    | some ns => exact defFree_appendChain h (defFree_ofList_symE caps)
    | none => exact defFree_appendChain h (defFree_ofList_symE caps)

/-- Transfer `StOK` across a `postProcessExpr` step (which only touches
the worklist). -/
theorem stOK_postProcessExpr {st0 : PassState} (A : List (Nat × List Nat))
    (st : PassState) (e : Expr) (h : StOK st0 st) :
    StOK st0 (postProcessExpr A st e).1 := by
  obtain ⟨hcompl, herr, hsym⟩ := postProcessExpr_stFields A st e
  refine ⟨?_, herr.trans h.2.1, ?_⟩
  · intro c hc
    rw [hcompl] at hc
    exact h.1 c hc
  · intro k hk
    rw [hsym]
    exact h.2.2 k hk

end Chapel

namespace Chapel

/-- Master invariant of the rewrite traversal, by structural induction:
over definition-free expressions the traversal preserves the invariants
and definition-freeness; over well-formed statements and statement
chains it eliminates every nested definition (in-function chains end up
with no definitions at all, top-level chains with none nested), never
touches a capture set without an entry (the error count is unchanged),
keeps all completed copies free of nested definitions, and records a
`_nested_func_sym_map` entry for every nested definition it visited. -/
theorem procOK (A : List (Nat × List Nat)) (tbl : SymTbl) :
    ∀ e : Expr,
      (∀ st, defFree e = true → cleanSt st →
        (StOK st (proc A tbl Mode.expr st e).1
          ∧ defFree (proc A tbl Mode.expr st e).2 = true)
        ∧ (StOK st (proc A tbl Mode.args st e).1
          ∧ defFree (proc A tbl Mode.args st e).2 = true))
      ∧ (∀ st, goodB false e = true → coveredBy A (nestedDefSyms false e) →
          cleanSt st →
          StOK st (proc A tbl Mode.expr st e).1
          ∧ nestedDefSyms false (proc A tbl Mode.expr st e).2 = []
          ∧ coveredBy (proc A tbl Mode.expr st e).1.symMap
              (nestedDefSyms false e))
      ∧ (∀ st, goodB true e = true → coveredBy A (nestedDefSyms true e) →
          cleanSt st →
          StOK st (proc A tbl (Mode.stmts true) st e).1
          ∧ nestedDefSyms true (proc A tbl (Mode.stmts true) st e).2 = []
          ∧ coveredBy (proc A tbl (Mode.stmts true) st e).1.symMap
              (nestedDefSyms true e))
      ∧ (∀ st, goodB true e = true → coveredBy A (nestedDefSyms false e) →
          cleanSt st →
          StOK st (proc A tbl (Mode.stmts false) st e).1
          ∧ nestedDefSyms false (proc A tbl (Mode.stmts false) st e).2 = []
          ∧ coveredBy (proc A tbl (Mode.stmts false) st e).1.symMap
              (nestedDefSyms false e)) := by
  intro e
  induction e with
  | symE s =>
    refine ⟨?_, ?_, ?_, ?_⟩
    · intro st _ hcl
      simp only [proc]
      exact ⟨⟨stOK_refl st hcl, rfl⟩, ⟨stOK_refl st hcl, rfl⟩⟩
    · intro st _ _ hcl
      simp only [proc]
      exact ⟨stOK_refl st hcl, rfl, fun f hf => by simp [nestedDefSyms] at hf⟩
    · intro st hg
      exact absurd hg (by simp [goodB])
    · intro st hg
      exact absurd hg (by simp [goodB])
  | callE b args ih =>
    have key : ∀ st, defFree args = true → cleanSt st →
        StOK st (proc A tbl Mode.expr st (Expr.callE b args)).1
        ∧ defFree (proc A tbl Mode.expr st (Expr.callE b args)).2 = true := by
      intro st hdf hcl
      simp only [proc]
      obtain ⟨hst1, hdf1⟩ := (ih.1 st hdf hcl).2
      constructor
      · exact stOK_postProcessExpr A _ _ hst1
      · exact postProcessExpr_defFree A _ b _ hdf1
    refine ⟨?_, ?_, ?_, ?_⟩
    · intro st hdf hcl
      refine ⟨key st hdf hcl, ?_⟩
      simp only [proc]
      exact ⟨stOK_refl st hcl, hdf⟩
    · intro st hg hcov hcl
      obtain ⟨hst, hdfo⟩ := key st hg hcl
      refine ⟨hst, defFree_nestedDefSyms hdfo false, ?_⟩
      intro f hf
      rw [show nestedDefSyms false (Expr.callE b args)
            = nestedDefSyms false args from rfl,
          defFree_nestedDefSyms hg false] at hf
      simp at hf
    · intro st hg
      exact absurd hg (by simp [goodB])
    · intro st hg
      exact absurd hg (by simp [goodB])
  | defE f fs body ih =>
    refine ⟨?_, ?_, ?_, ?_⟩
    · intro st hdf
      exact absurd hdf (by simp [defFree])
    · intro st hg hcov hcl
      simp only [proc]
      obtain ⟨hst, hnil, hcovOut⟩ := ih.2.2.1 st hg hcov hcl
      refine ⟨hst, ?_, hcovOut⟩
      simpa [nestedDefSyms] using hnil
    · intro st hg
      exact absurd hg (by simp [goodB])
    · intro st hg
      exact absurd hg (by simp [goodB])
  | nilE =>
    refine ⟨?_, ?_, ?_, ?_⟩
    · intro st _ hcl
      simp only [proc]
      exact ⟨⟨stOK_refl st hcl, rfl⟩, ⟨stOK_refl st hcl, rfl⟩⟩
    · intro st hg
      exact absurd hg (by simp [goodB])
    · intro st _ _ hcl
      simp only [proc]
      exact ⟨stOK_refl st hcl, rfl, fun f hf => by simp [nestedDefSyms] at hf⟩
    · intro st _ _ hcl
      simp only [proc]
      exact ⟨stOK_refl st hcl, rfl, fun f hf => by simp [nestedDefSyms] at hf⟩
  | consE a rest iha ihrest =>
    refine ⟨?_, ?_, ?_, ?_⟩
    · -- definition-free chains, expression and argument modes
      intro st hdf hcl
      have hdfa : defFree a = true ∧ defFree rest = true := by
        simpa [defFree, Bool.and_eq_true] using hdf
      constructor
      · simp only [proc]
        obtain ⟨hst1, hdf1⟩ := (iha.1 st hdfa.1 hcl).1
        obtain ⟨hst2, hdf2⟩ := (ihrest.1 _ hdfa.2 hst1.1).1
        exact ⟨stOK_trans hst1 hst2, by simp [defFree, hdf1, hdf2]⟩
      · simp only [proc]
        obtain ⟨hst1, hdf1⟩ := (iha.1 st hdfa.1 hcl).1
        obtain ⟨hst2, hdf2⟩ := (ihrest.1 _ hdfa.2 hst1.1).2
        exact ⟨stOK_trans hst1 hst2, by simp [defFree, hdf1, hdf2]⟩
    · -- a chain is not a single statement
      intro st hg
      exact absurd hg (by simp [goodB])
    · -- statement chain inside a function: every definition is lifted
      intro st hg hcov hcl
      have hga : goodB false a = true ∧ goodB true rest = true := by
        simpa [goodB, Bool.and_eq_true] using hg
      have hcov2 := coveredBy_append A (nestedDefSyms true a)
        (nestedDefSyms true rest) hcov
      cases a with
      | defE f fs body =>
        have hfmem : f ∈ nestedDefSyms true (Expr.defE f fs body) := by
          simp [nestedDefSyms]
        obtain ⟨caps, hf⟩ := Option.isSome_iff_exists.mp (hcov2.1 f hfmem)
        have hcovBody : coveredBy A
            (nestedDefSyms false (Expr.defE f fs body)) := by
          intro g hgmem
          refine hcov2.1 g ?_
          have hgb : g ∈ nestedDefSyms true body := by
            simpa [nestedDefSyms] using hgmem
          simp [nestedDefSyms, hgb]
        obtain ⟨hstB, hnilB, hcovB⟩ := iha.2.1 st hga.1 hcovBody hcl
        rw [show proc A tbl Mode.expr st (Expr.defE f fs body)
              = ((proc A tbl (Mode.stmts true) st body).1,
                 Expr.defE f fs
                   (proc A tbl (Mode.stmts true) st body).2) from rfl]
          at hstB hnilB hcovB
        have hnilBody : nestedDefSyms true
            (proc A tbl (Mode.stmts true) st body).2 = [] := by
          simpa [nestedDefSyms] using hnilB
        have hclC : cleanSt (liftState tbl f fs caps
            (proc A tbl (Mode.stmts true) st body)) :=
          liftState_clean tbl f fs caps _ hstB.1 hnilBody
        obtain ⟨hstR, hnilR, hcovR⟩ := ihrest.2.2.1
          (liftState tbl f fs caps (proc A tbl (Mode.stmts true) st body))
          hga.2 hcov2.2 hclC
        have hstC : StOK st (liftState tbl f fs caps
            (proc A tbl (Mode.stmts true) st body)) := by
          refine stOK_trans hstB ⟨hclC, ?_, ?_⟩
          · rw [liftState_errors]
          · intro k hk
            rw [liftState_symMap]
            exact lookupA_cons_isSome _ _ hk
        have heq3 : proc A tbl (Mode.stmts true) st
            (Expr.consE (Expr.defE f fs body) rest)
            = ((proc A tbl (Mode.stmts true)
                  (liftState tbl f fs caps
                    (proc A tbl (Mode.stmts true) st body)) rest).1,
               (proc A tbl (Mode.stmts true)
                  (liftState tbl f fs caps
                    (proc A tbl (Mode.stmts true) st body)) rest).2) := by
          simp [proc, hf]
        rw [heq3]
        refine ⟨stOK_trans hstC hstR, hnilR, ?_⟩
        intro g hgmem
        have hgmem2 : g = f
            ∨ g ∈ nestedDefSyms true body ++ nestedDefSyms true rest :=
          List.mem_cons.mp hgmem
        have hmono := hstR.2.2
        rcases hgmem2 with hgf | hgbr
        · subst hgf
          refine hmono g ?_
          rw [liftState_symMap]
          simp [lookupA]
        · rcases List.mem_append.mp hgbr with hgb | hgr
          · refine hmono g ?_
            rw [liftState_symMap]
            refine lookupA_cons_isSome _ _ ?_
            refine hcovB g ?_
            simpa [nestedDefSyms] using hgb
          · exact hcovR g hgr
      | symE s =>
        obtain ⟨hstR, hnilR, hcovR⟩ := ihrest.2.2.1 st hga.2 hcov2.2 hcl
        have heq2 : proc A tbl (Mode.stmts true) st
            (Expr.consE (Expr.symE s) rest)
            = ((proc A tbl (Mode.stmts true) st rest).1,
               Expr.consE (Expr.symE s)
                 (proc A tbl (Mode.stmts true) st rest).2) := rfl
        rw [heq2]
        refine ⟨hstR, ?_, ?_⟩
        · simpa [nestedDefSyms] using hnilR
        · intro g hgmem
          exact hcovR g (by simpa [nestedDefSyms] using hgmem)
      | callE b2 args2 =>
        have hdfa : defFree (Expr.callE b2 args2) = true := hga.1
        obtain ⟨hst1, hdf1⟩ := (iha.1 st hdfa hcl).1
        obtain ⟨hstR, hnilR, hcovR⟩ := ihrest.2.2.1
          (proc A tbl Mode.expr st (Expr.callE b2 args2)).1
          hga.2 hcov2.2 hst1.1
        have heq2 : proc A tbl (Mode.stmts true) st
            (Expr.consE (Expr.callE b2 args2) rest)
            = ((proc A tbl (Mode.stmts true)
                  (proc A tbl Mode.expr st (Expr.callE b2 args2)).1 rest).1,
               Expr.consE (proc A tbl Mode.expr st (Expr.callE b2 args2)).2
                 (proc A tbl (Mode.stmts true)
                   (proc A tbl Mode.expr st (Expr.callE b2 args2)).1 rest).2)
            := rfl
        rw [heq2]
        refine ⟨stOK_trans hst1 hstR, ?_, ?_⟩
        · have h1 := defFree_nestedDefSyms hdf1 true
          simp only [nestedDefSyms]
          rw [h1, hnilR]
          rfl
        · intro g hgmem
          have h1 : nestedDefSyms true args2 = [] :=
            defFree_nestedDefSyms (e := args2) hdfa true
          refine hcovR g ?_
          simpa [nestedDefSyms, h1] using hgmem
      | nilE =>
        exact absurd hga.1 (by simp [goodB])
      | consE u v =>
        exact absurd hga.1 (by simp [goodB])
    · -- top-level statement chain: kept definitions have cleaned bodies
      intro st hg hcov hcl
      have hga : goodB false a = true ∧ goodB true rest = true := by
        simpa [goodB, Bool.and_eq_true] using hg
      have hcov2 := coveredBy_append A (nestedDefSyms false a)
        (nestedDefSyms false rest) hcov
      cases a with
      | defE f fs body =>
        obtain ⟨hstB, hnilB, hcovB⟩ := iha.2.1 st hga.1 hcov2.1 hcl
        rw [show proc A tbl Mode.expr st (Expr.defE f fs body)
              = ((proc A tbl (Mode.stmts true) st body).1,
                 Expr.defE f fs
                   (proc A tbl (Mode.stmts true) st body).2) from rfl]
          at hstB hnilB hcovB
        obtain ⟨hstR, hnilR, hcovR⟩ := ihrest.2.2.2
          (proc A tbl (Mode.stmts true) st body).1 hga.2 hcov2.2 hstB.1
        have heq4 : proc A tbl (Mode.stmts false) st
            (Expr.consE (Expr.defE f fs body) rest)
            = ((proc A tbl (Mode.stmts false)
                  (proc A tbl (Mode.stmts true) st body).1 rest).1,
               Expr.consE
                 (Expr.defE f fs (proc A tbl (Mode.stmts true) st body).2)
                 (proc A tbl (Mode.stmts false)
                   (proc A tbl (Mode.stmts true) st body).1 rest).2) := rfl
        rw [heq4]
        have hnilBody : nestedDefSyms true
            (proc A tbl (Mode.stmts true) st body).2 = [] := by
          simpa [nestedDefSyms] using hnilB
        refine ⟨stOK_trans hstB hstR, ?_, ?_⟩
        · simp [nestedDefSyms, hnilBody, hnilR]
        · intro g hgmem
          have hgmem2 : g ∈ nestedDefSyms true body
              ++ nestedDefSyms false rest := hgmem
          have hmono := hstR.2.2
          rcases List.mem_append.mp hgmem2 with hgb | hgr
          · refine hmono g ?_
            refine hcovB g ?_
            simpa [nestedDefSyms] using hgb
          · exact hcovR g hgr
      | symE s =>
        obtain ⟨hstR, hnilR, hcovR⟩ := ihrest.2.2.2 st hga.2 hcov2.2 hcl
        have heq2 : proc A tbl (Mode.stmts false) st
            (Expr.consE (Expr.symE s) rest)
            = ((proc A tbl (Mode.stmts false) st rest).1,
               Expr.consE (Expr.symE s)
                 (proc A tbl (Mode.stmts false) st rest).2) := rfl
        rw [heq2]
        refine ⟨hstR, ?_, ?_⟩
        · simpa [nestedDefSyms] using hnilR
        · intro g hgmem
          exact hcovR g (by simpa [nestedDefSyms] using hgmem)
      | callE b2 args2 =>
        have hdfa : defFree (Expr.callE b2 args2) = true := hga.1
        obtain ⟨hst1, hdf1⟩ := (iha.1 st hdfa hcl).1
        obtain ⟨hstR, hnilR, hcovR⟩ := ihrest.2.2.2
          (proc A tbl Mode.expr st (Expr.callE b2 args2)).1
          hga.2 hcov2.2 hst1.1
        have heq2 : proc A tbl (Mode.stmts false) st
            (Expr.consE (Expr.callE b2 args2) rest)
            = ((proc A tbl (Mode.stmts false)
                  (proc A tbl Mode.expr st (Expr.callE b2 args2)).1 rest).1,
               Expr.consE (proc A tbl Mode.expr st (Expr.callE b2 args2)).2
                 (proc A tbl (Mode.stmts false)
                   (proc A tbl Mode.expr st (Expr.callE b2 args2)).1 rest).2)
            := rfl
        rw [heq2]
        refine ⟨stOK_trans hst1 hstR, ?_, ?_⟩
        · have h1 := defFree_nestedDefSyms hdf1 false
          simp only [nestedDefSyms]
          rw [h1, hnilR]
          rfl
        · intro g hgmem
          have h1 : nestedDefSyms false args2 = [] :=
            defFree_nestedDefSyms (e := args2) hdfa false
          refine hcovR g ?_
          simpa [nestedDefSyms, h1] using hgmem
      | nilE =>
        exact absurd hga.1 (by simp [goodB])
      | consE u v =>
        exact absurd hga.1 (by simp [goodB])

end Chapel

namespace Chapel

/-! ### Consequences: no nested definitions remain; idempotence -/

theorem nestedDefSyms_appendChain_nil {c d : Expr}
    (hc : nestedDefSyms false c = []) (hd : nestedDefSyms false d = []) :
    nestedDefSyms false (appendChain c d) = [] := by
  induction c with
  | nilE => simpa [appendChain] using hd
  | consE a b iha ihb =>
    rw [show nestedDefSyms false (Expr.consE a b)
        = nestedDefSyms false a ++ nestedDefSyms false b from rfl,
      List.append_eq_nil] at hc
    rw [show appendChain (Expr.consE a b) d
        = Expr.consE a (appendChain b d) from rfl]
    rw [show nestedDefSyms false (Expr.consE a (appendChain b d))
        = nestedDefSyms false a ++ nestedDefSyms false (appendChain b d)
        from rfl]
    rw [hc.1, ihb hc.2]
    rfl
  | symE s => simpa [appendChain] using hc
  | callE b args ih => simpa [appendChain] using hc
  | defE f fs body ih => simpa [appendChain] using hc

theorem nestedDefSyms_ofList_nil (l : List Expr)
    (h : ∀ c ∈ l, nestedDefSyms false c = []) :
    nestedDefSyms false (ofList l) = [] := by
  induction l with
  | nil => rfl
  | cons a rest ih =>
    rw [show ofList (a :: rest) = Expr.consE a (ofList rest) from rfl]
    rw [show nestedDefSyms false (Expr.consE a (ofList rest))
        = nestedDefSyms false a ++ nestedDefSyms false (ofList rest)
        from rfl]
    rw [h a (List.mem_cons_self a rest), ih (fun c hc => h c (List.mem_cons_of_mem a hc))]
    rfl

theorem analyze_covers (capsOf : Nat → List Nat) (m : Expr) :
    coveredBy (analyze capsOf m) (nestedDefSyms false m) :=
  fun _ hf => lookupA_analyze_isSome capsOf _ hf

theorem initState_clean (n : Nat) : cleanSt (initState n) := by
  intro c hc
  simp [initState] at hc

/-- After a full run on a well-formed module, no nested function
definitions remain anywhere in the module (shared helper). -/
theorem runPass_noNested (capsOf : Nat → List Nat) (tbl : SymTbl) (n : Nat)
    (m : Expr) (hg : goodB true m = true) :
    nestedDefSyms false (runPass capsOf tbl n m) = [] := by
  obtain ⟨hst, hnil, _⟩ := (procOK (analyze capsOf m) tbl m).2.2.2
    (initState n) hg (analyze_covers capsOf m) (initState_clean n)
  have hout : runPass capsOf tbl n m
      = appendChain (proc (analyze capsOf m) tbl (Mode.stmts false)
          (initState n) m).2
        (ofList (proc (analyze capsOf m) tbl (Mode.stmts false)
          (initState n) m).1.completed) := rfl
  rw [hout]
  exact nestedDefSyms_appendChain_nil hnil
    (nestedDefSyms_ofList_nil _ (fun c hc => hst.1 c hc))

/-! ### Claim C8: the output has no remaining nested definitions -/

/-- C8.  On a well-formed module, the pass removes every nested function
definition: the rewritten module (original statements with every nested
definition removed, followed by the lifted copies inserted at the module
tail) contains no definition nested inside a function; moreover, for
every nested definition visited, a lifted replacement symbol was recorded
(its copy is one of the statements appended at the module tail). -/
theorem runPass_no_nested_defs (capsOf : Nat → List Nat) (tbl : SymTbl)
    (n : Nat) (m : Expr) (hg : goodB true m = true) :
    nestedDefSyms false (runPassModule (analyze capsOf m) tbl n m) = []
    ∧ ∀ f ∈ nestedDefSyms false m,
        (lookupA (runRewrite (analyze capsOf m) tbl n m).1.symMap f).isSome
          = true := by
  constructor
  · exact runPass_noNested capsOf tbl n m hg
  · obtain ⟨_, _, hcov⟩ := (procOK (analyze capsOf m) tbl m).2.2.2
      (initState n) hg (analyze_covers capsOf m) (initState_clean n)
    exact hcov

theorem runPass_no_nested_defs_witness :
    nestedDefSyms false (runPassModule
        (analyze (fun f => if f = 2 then [1] else []) scenarioA)
        tblId 10 scenarioA) = []
    ∧ ∀ f ∈ nestedDefSyms false scenarioA,
        (lookupA (runRewrite
            (analyze (fun f => if f = 2 then [1] else []) scenarioA)
            tblId 10 scenarioA).1.symMap f).isSome = true :=
  runPass_no_nested_defs (fun f => if f = 2 then [1] else []) tblId 10
    scenarioA (by decide)

/-! ### Claim C9: the Lifter never reads a missing capture set -/

/-- C9.  On a well-formed module, with the capture-set map produced by
the upfront analysis (one entry per definition satisfying the same
enclosing-function predicate the rewrite traversal uses), the rewrite
traversal never dereferences a missing capture set: the error count,
which the embedding increments exactly where the C++ would dereference
the NULL result of `_nested_func_args_map->get`, stays zero. -/
theorem rewrite_no_missing_capture_set (capsOf : Nat → List Nat)
    (tbl : SymTbl) (n : Nat) (m : Expr) (hg : goodB true m = true) :
    (runRewrite (analyze capsOf m) tbl n m).1.errors = 0 := by
  obtain ⟨hst, _, _⟩ := (procOK (analyze capsOf m) tbl m).2.2.2
    (initState n) hg (analyze_covers capsOf m) (initState_clean n)
  exact hst.2.1

theorem rewrite_no_missing_capture_set_witness :
    (runRewrite (analyze (fun f => if f = 2 then [1] else []) scenarioA)
        tblId 10 scenarioA).1.errors = 0 :=
  rewrite_no_missing_capture_set (fun f => if f = 2 then [1] else [])
    tblId 10 scenarioA (by decide)

end Chapel

namespace Chapel

/-- With an empty capture-set map, the traversal is the identity on any
expression containing no nested definition: no call has a map entry, and
no statement is lifted. -/
theorem proc_empty_id (tbl : SymTbl) :
    ∀ e : Expr,
      (nestedDefSyms true e = [] →
        ∀ (st : PassState) (mode : Mode),
          proc [] tbl mode st e = (st, e))
      ∧ (nestedDefSyms false e = [] →
        ∀ st : PassState,
          proc [] tbl Mode.expr st e = (st, e)
          ∧ proc [] tbl Mode.args st e = (st, e)
          ∧ proc [] tbl (Mode.stmts false) st e = (st, e)) := by
  intro e
  induction e with
  | symE s =>
    constructor
    · intro _ st mode
      rcases mode with _ | _ | inFn <;> rfl
    · intro _ st
      exact ⟨rfl, rfl, rfl⟩
  | callE b args ih =>
    have hcall : ∀ st : PassState, proc [] tbl Mode.args st args = (st, args) →
        proc [] tbl Mode.expr st (Expr.callE b args) = (st, Expr.callE b args) := by
      intro st hargs
      have h1 : proc [] tbl Mode.expr st (Expr.callE b args)
          = postProcessExpr [] (proc [] tbl Mode.args st args).1
              (Expr.callE b (proc [] tbl Mode.args st args).2) := rfl
      rw [h1, hargs]
      rfl
    constructor
    · intro h st mode
      have hargs : proc [] tbl Mode.args st args = (st, args) :=
        ih.1 h st Mode.args
      rcases mode with _ | _ | inFn
      · exact hcall st hargs
      · rfl
      · rfl
    · intro h st
      have hargs : proc [] tbl Mode.args st args = (st, args) :=
        (ih.2 h st).2.1
      exact ⟨hcall st hargs, rfl, rfl⟩
  | defE f fs body ih =>
    constructor
    · intro h st mode
      exact absurd h (by simp [nestedDefSyms])
    · intro h st
      have hbody : proc [] tbl (Mode.stmts true) st body = (st, body) :=
        ih.1 h st (Mode.stmts true)
      have h1 : proc [] tbl Mode.expr st (Expr.defE f fs body)
          = ((proc [] tbl (Mode.stmts true) st body).1,
             Expr.defE f fs (proc [] tbl (Mode.stmts true) st body).2) := rfl
      rw [h1, hbody]
      exact ⟨rfl, rfl, rfl⟩
  | nilE =>
    constructor
    · intro _ st mode
      rcases mode with _ | _ | inFn <;> rfl
    · intro _ st
      exact ⟨rfl, rfl, rfl⟩
  | consE a rest iha ihrest =>
    constructor
    · -- no definitions at all in the chain
      intro h st mode
      have hsplit : nestedDefSyms true a = [] ∧ nestedDefSyms true rest = [] := by
        rw [show nestedDefSyms true (Expr.consE a rest)
            = nestedDefSyms true a ++ nestedDefSyms true rest from rfl,
          List.append_eq_nil] at h
        exact h
      have ha := iha.1 hsplit.1
      have hr := ihrest.1 hsplit.2
      rcases mode with _ | _ | inFn
      · have h1 : proc [] tbl Mode.expr st (Expr.consE a rest)
            = ((proc [] tbl Mode.expr (proc [] tbl Mode.expr st a).1 rest).1,
               Expr.consE (proc [] tbl Mode.expr st a).2
                 (proc [] tbl Mode.expr (proc [] tbl Mode.expr st a).1 rest).2)
            := rfl
        rw [h1, ha st Mode.expr, hr st Mode.expr]
      · have h1 : proc [] tbl Mode.args st (Expr.consE a rest)
            = ((proc [] tbl Mode.args (proc [] tbl Mode.expr st a).1 rest).1,
               Expr.consE (proc [] tbl Mode.expr st a).2
                 (proc [] tbl Mode.args (proc [] tbl Mode.expr st a).1 rest).2)
            := rfl
        rw [h1, ha st Mode.expr, hr st Mode.args]
      · cases a with
        | defE f fs body =>
          exact absurd hsplit.1 (by simp [nestedDefSyms])
        | symE s =>
          have h1 : proc [] tbl (Mode.stmts inFn) st
              (Expr.consE (Expr.symE s) rest)
              = ((proc [] tbl (Mode.stmts inFn)
                    (proc [] tbl Mode.expr st (Expr.symE s)).1 rest).1,
                 Expr.consE (proc [] tbl Mode.expr st (Expr.symE s)).2
                   (proc [] tbl (Mode.stmts inFn)
                     (proc [] tbl Mode.expr st (Expr.symE s)).1 rest).2) := rfl
          rw [h1, ha st Mode.expr, hr st (Mode.stmts inFn)]
        | callE b2 args2 =>
          have h1 : proc [] tbl (Mode.stmts inFn) st
              (Expr.consE (Expr.callE b2 args2) rest)
              = ((proc [] tbl (Mode.stmts inFn)
                    (proc [] tbl Mode.expr st (Expr.callE b2 args2)).1 rest).1,
                 Expr.consE (proc [] tbl Mode.expr st (Expr.callE b2 args2)).2
                   (proc [] tbl (Mode.stmts inFn)
                     (proc [] tbl Mode.expr st (Expr.callE b2 args2)).1
                     rest).2) := rfl
          rw [h1, ha st Mode.expr, hr st (Mode.stmts inFn)]
        | nilE =>
          have h1 : proc [] tbl (Mode.stmts inFn) st
              (Expr.consE Expr.nilE rest)
              = ((proc [] tbl (Mode.stmts inFn)
                    (proc [] tbl Mode.expr st Expr.nilE).1 rest).1,
                 Expr.consE (proc [] tbl Mode.expr st Expr.nilE).2
                   (proc [] tbl (Mode.stmts inFn)
                     (proc [] tbl Mode.expr st Expr.nilE).1 rest).2) := rfl
          rw [h1, ha st Mode.expr, hr st (Mode.stmts inFn)]
        | consE u v =>
          have h1 : proc [] tbl (Mode.stmts inFn) st
              (Expr.consE (Expr.consE u v) rest)
              = ((proc [] tbl (Mode.stmts inFn)
                    (proc [] tbl Mode.expr st (Expr.consE u v)).1 rest).1,
                 Expr.consE (proc [] tbl Mode.expr st (Expr.consE u v)).2
                   (proc [] tbl (Mode.stmts inFn)
                     (proc [] tbl Mode.expr st (Expr.consE u v)).1 rest).2)
              := rfl
          rw [h1, ha st Mode.expr, hr st (Mode.stmts inFn)]
    · -- no nested definitions (top-level definitions may remain)
      intro h st
      have hsplit : nestedDefSyms false a = [] ∧ nestedDefSyms false rest = [] := by
        rw [show nestedDefSyms false (Expr.consE a rest)
            = nestedDefSyms false a ++ nestedDefSyms false rest from rfl,
          List.append_eq_nil] at h
        exact h
      have ha := iha.2 hsplit.1
      have hr := ihrest.2 hsplit.2
      refine ⟨?_, ?_, ?_⟩
      · have h1 : proc [] tbl Mode.expr st (Expr.consE a rest)
            = ((proc [] tbl Mode.expr (proc [] tbl Mode.expr st a).1 rest).1,
               Expr.consE (proc [] tbl Mode.expr st a).2
                 (proc [] tbl Mode.expr (proc [] tbl Mode.expr st a).1 rest).2)
            := rfl
        rw [h1, (ha st).1, (hr st).1]
      · have h1 : proc [] tbl Mode.args st (Expr.consE a rest)
            = ((proc [] tbl Mode.args (proc [] tbl Mode.expr st a).1 rest).1,
               Expr.consE (proc [] tbl Mode.expr st a).2
                 (proc [] tbl Mode.args (proc [] tbl Mode.expr st a).1 rest).2)
            := rfl
        rw [h1, (ha st).1, (hr st).2.1]
      · cases a with
        | defE f fs body =>
          have hExpand : proc [] tbl Mode.expr st (Expr.defE f fs body)
              = ((proc [] tbl (Mode.stmts true) st body).1,
                 Expr.defE f fs
                   (proc [] tbl (Mode.stmts true) st body).2) := rfl
          have hid := (ha st).1
          rw [hExpand] at hid
          have hp1 : (proc [] tbl (Mode.stmts true) st body).1 = st :=
            congrArg Prod.fst hid
          have hp2x : Expr.defE f fs
              (proc [] tbl (Mode.stmts true) st body).2
              = Expr.defE f fs body := congrArg Prod.snd hid
          have hp2 : (proc [] tbl (Mode.stmts true) st body).2 = body := by
            injection hp2x
          have hbody : proc [] tbl (Mode.stmts true) st body = (st, body) :=
            Prod.ext hp1 hp2
          have h1 : proc [] tbl (Mode.stmts false) st
              (Expr.consE (Expr.defE f fs body) rest)
              = ((proc [] tbl (Mode.stmts false)
                    (proc [] tbl (Mode.stmts true) st body).1 rest).1,
                 Expr.consE
                   (Expr.defE f fs
                     (proc [] tbl (Mode.stmts true) st body).2)
                   (proc [] tbl (Mode.stmts false)
                     (proc [] tbl (Mode.stmts true) st body).1 rest).2) := rfl
          rw [h1, hbody, (hr st).2.2]
        | symE s =>
          have h1 : proc [] tbl (Mode.stmts false) st
              (Expr.consE (Expr.symE s) rest)
              = ((proc [] tbl (Mode.stmts false)
                    (proc [] tbl Mode.expr st (Expr.symE s)).1 rest).1,
                 Expr.consE (proc [] tbl Mode.expr st (Expr.symE s)).2
                   (proc [] tbl (Mode.stmts false)
                     (proc [] tbl Mode.expr st (Expr.symE s)).1 rest).2) := rfl
          rw [h1, (ha st).1, (hr st).2.2]
        | callE b2 args2 =>
          have h1 : proc [] tbl (Mode.stmts false) st
              (Expr.consE (Expr.callE b2 args2) rest)
              = ((proc [] tbl (Mode.stmts false)
                    (proc [] tbl Mode.expr st (Expr.callE b2 args2)).1 rest).1,
                 Expr.consE (proc [] tbl Mode.expr st (Expr.callE b2 args2)).2
                   (proc [] tbl (Mode.stmts false)
                     (proc [] tbl Mode.expr st (Expr.callE b2 args2)).1
                     rest).2) := rfl
          rw [h1, (ha st).1, (hr st).2.2]
        | nilE =>
          have h1 : proc [] tbl (Mode.stmts false) st
              (Expr.consE Expr.nilE rest)
              = ((proc [] tbl (Mode.stmts false)
                    (proc [] tbl Mode.expr st Expr.nilE).1 rest).1,
                 Expr.consE (proc [] tbl Mode.expr st Expr.nilE).2
                   (proc [] tbl (Mode.stmts false)
                     (proc [] tbl Mode.expr st Expr.nilE).1 rest).2) := rfl
          rw [h1, (ha st).1, (hr st).2.2]
        | consE u v =>
          have h1 : proc [] tbl (Mode.stmts false) st
              (Expr.consE (Expr.consE u v) rest)
              = ((proc [] tbl (Mode.stmts false)
                    (proc [] tbl Mode.expr st (Expr.consE u v)).1 rest).1,
                 Expr.consE (proc [] tbl Mode.expr st (Expr.consE u v)).2
                   (proc [] tbl (Mode.stmts false)
                     (proc [] tbl Mode.expr st (Expr.consE u v)).1 rest).2)
              := rfl
          rw [h1, (ha st).1, (hr st).2.2]

end Chapel

namespace Chapel

/-! ### Claim C5: idempotence -/

/-- C5.  The pass lifts each definition at most once (the single
traversal visits each statement once, and the output contains no nested
definitions), and running the whole pass — analysis followed by rewrite —
a second time on its own output changes nothing: the second analysis
finds no nested functions, so no function is lifted again, no formals are
added, and no call gains extra actuals. -/
theorem runPass_idempotent (capsOf : Nat → List Nat) (tbl : SymTbl)
    (n n2 : Nat) (m : Expr) (hg : goodB true m = true) :
    runPass capsOf tbl n2 (runPass capsOf tbl n m)
      = runPass capsOf tbl n m := by
  have hM : nestedDefSyms false (runPass capsOf tbl n m) = [] :=
    runPass_noNested capsOf tbl n m hg
  have hA : analyze capsOf (runPass capsOf tbl n m) = [] := by
    unfold analyze
    rw [hM]
    rfl
  have hid := (proc_empty_id tbl (runPass capsOf tbl n m)).2 hM (initState n2)
  rw [show runPass capsOf tbl n2 (runPass capsOf tbl n m)
      = runPassModule (analyze capsOf (runPass capsOf tbl n m)) tbl n2
          (runPass capsOf tbl n m) from rfl, hA]
  rw [show runPassModule [] tbl n2 (runPass capsOf tbl n m)
      = appendChain (proc [] tbl (Mode.stmts false) (initState n2)
          (runPass capsOf tbl n m)).2
        (ofList (proc [] tbl (Mode.stmts false) (initState n2)
          (runPass capsOf tbl n m)).1.completed) from rfl]
  rw [hid.2.2]
  show appendChain (runPass capsOf tbl n m) (ofList []) = runPass capsOf tbl n m
  exact appendChain_nil _

theorem runPass_idempotent_witness :
    runPass (fun f => if f = 2 then [1] else []) tblId 50
        (runPass (fun f => if f = 2 then [1] else []) tblId 10 scenarioA)
      = runPass (fun f => if f = 2 then [1] else []) tblId 10 scenarioA :=
  runPass_idempotent (fun f => if f = 2 then [1] else []) tblId 10 50
    scenarioA (by decide)

end Chapel

namespace CaptureAnalysis

/-!
### The Capture Analyzer fixed point (`enclVarUsesHelper`)

`RemoveNestedFunctions::enclVarUsesHelper` iterates: each round it calls
`findEnclScopeVarUses` for every nested function over a shared iteration
map `encl_var_use_map` (updated in place with `Map::put` as the round
proceeds), then compares, per function, the length of the iteration
result against the length of the accumulated global set in
`_nested_func_args_map`; on a difference it `add_exclusive`s the
iteration elements into the global set and flags another round.

The per-function fresh variable-uses computation is carried out by
`FindEnclosingScopeVarUses`, whose source file is not in the repository
snapshot; `getEnclosingFuncVarUses` below is modelled from the spec.
Each nested function is abstracted as `FnInfo`: its symbol, the outer
variables its body uses directly, the nested functions it calls, and the
variables visible in its enclosing scope.
-/

/-- Description of one nested function, as far as the analysis needs. -/
structure FnInfo where
  fsym : Nat
  direct : List Nat
  callees : List Nat
  visible : List Nat
deriving DecidableEq, Repr

/-- Capture-set maps (`Map<FnSymbol*, Vec<Symbol*>*>`). -/
def VMap : Type := List (Nat × List Nat)

/-- `Map::get` with the NULL vector read as empty. -/
def lookupD (m : VMap) (k : Nat) : List Nat :=
  (Chapel.lookupA m k).getD []

/-- `Map::put`. -/
def putA (k : Nat) (v : List Nat) (m : VMap) : VMap := (k, v) :: m

/-- `add_exclusive` every element of `xs` into `l`, in order. -/
def addAll (l xs : List Nat) : List Nat := xs.foldl Chapel.addExcl l

/-- Modelled from the spec: `FindEnclosingScopeVarUses` (its source file
is not under the snapshot) computes a fresh duplicate-free variable-uses
set for one nested function: the outer variables used directly in its
body, plus, for every call to another nested function `g`, the current
capture set of `g` filtered to the variables visible in the enclosing
scope. -/
def getEnclosingFuncVarUses (info : FnInfo) (m : VMap) : List Nat :=
  addAll []
    (info.direct ++
      (info.callees.map
        (fun g => (lookupD m g).filter (fun v => v ∈ info.visible))).flatten)

/-- `RemoveNestedFunctions::findEnclScopeVarUses`: store the fresh
variable-uses set for this function into the iteration map. -/
def findEnclScopeVarUses (info : FnInfo) (m : VMap) : VMap :=
  putA info.fsym (getEnclosingFuncVarUses info m) m

/-- One round of the do-while body: run `findEnclScopeVarUses` for every
nested function over the shared, in-place-updated iteration map. -/
def roundStep : List FnInfo → VMap → VMap
  | [], m => m
  | info :: rest, m => roundStep rest (findEnclScopeVarUses info m)

/-- The comparison loop of the do-while body: per nested function,
compare the length of the global accumulated set against the length of
this iteration's set; on a difference, `add_exclusive` the iteration
elements into the global set and set the change flag. -/
def comparePhase : List FnInfo → VMap → VMap → VMap × Bool
  | [], g, _ => (g, false)
  | info :: rest, g, i =>
    let gv := lookupD g info.fsym
    let iv := lookupD i info.fsym
    if gv.length = iv.length then comparePhase rest g i
    else
      let r := comparePhase rest (putA info.fsym (addAll gv iv) g) i
      (r.1, true)

/-- The do-while loop of `enclVarUsesHelper`, with explicit fuel.  The
returned flag is `true` when the loop exited normally (a round with no
change), `false` when the fuel ran out first. -/
def enclLoop (fns : List FnInfo) : Nat → VMap → VMap → VMap × Bool
  | 0, g, _ => (g, false)
  | fuel + 1, g, i =>
    let i2 := roundStep fns i
    let c := comparePhase fns g i2
    if c.2 then enclLoop fns fuel c.1 i2 else (c.1, true)

/-- All variables any capture set could ever mention. -/
def universeVars (fns : List FnInfo) : List Nat :=
  (fns.map (fun f => f.direct ++ f.visible)).flatten

/-- The initial global map: one empty entry per nested function. -/
def initG (fns : List FnInfo) : VMap := fns.map (fun f => (f.fsym, []))

/-- Enough fuel for the loop to reach its fixed point. -/
def fuelBound (fns : List FnInfo) : Nat :=
  fns.length * (universeVars fns).length + 1

/-- Sum of the iteration map's capture-set sizes over the functions. -/
def measureI (fns : List FnInfo) (i : VMap) : Nat :=
  (fns.map (fun f => (lookupD i f.fsym).length)).sum

/-- Pointwise inclusion of capture maps. -/
def mapLE (m1 m2 : VMap) : Prop := ∀ k, lookupD m1 k ⊆ lookupD m2 k

/-- All entries are duplicate-free and within the variable universe. -/
def goodI (fns : List FnInfo) (i : VMap) : Prop :=
  ∀ k, (lookupD i k).Nodup ∧ lookupD i k ⊆ universeVars fns

end CaptureAnalysis

namespace CaptureAnalysis

/-! ### Basic facts about `add_exclusive`, the maps and the fresh sets -/

theorem mem_addExcl (l : List Nat) (x a : Nat) :
    a ∈ Chapel.addExcl l x ↔ a ∈ l ∨ a = x := by
  unfold Chapel.addExcl
  split
  · constructor
    · exact fun h => Or.inl h
    · rintro (h | h)
      · exact h
      · subst h; assumption
  · simp [List.mem_append]

theorem nodup_addExcl (l : List Nat) (x : Nat) (h : l.Nodup) :
    (Chapel.addExcl l x).Nodup := by
  unfold Chapel.addExcl
  split
  · exact h
  · simp [List.nodup_append, h, *]

theorem mem_addAll (xs : List Nat) :
    ∀ (l : List Nat) (a : Nat), a ∈ addAll l xs ↔ a ∈ l ∨ a ∈ xs := by
  induction xs with
  | nil => intro l a; simp [addAll]
  | cons x xs ih =>
    intro l a
    have h1 : addAll l (x :: xs) = addAll (Chapel.addExcl l x) xs := rfl
    rw [h1, ih, mem_addExcl]
    simp [List.mem_cons]
    tauto

theorem nodup_addAll (xs : List Nat) :
    ∀ l : List Nat, l.Nodup → (addAll l xs).Nodup := by
  induction xs with
  | nil => intro l h; exact h
  | cons x xs ih =>
    intro l h
    exact ih _ (nodup_addExcl l x h)

theorem lookupD_putA (k : Nat) (v : List Nat) (m : VMap) (x : Nat) :
    lookupD (putA k v m) x = if k = x then v else lookupD m x := by
  unfold lookupD putA
  rw [show Chapel.lookupA ((k, v) :: m) x
      = if k = x then some v else Chapel.lookupA m x from rfl]
  split <;> rfl

theorem lookupD_nil (k : Nat) : lookupD [] k = [] := rfl

theorem lookupD_initG (fns : List FnInfo) (k : Nat) :
    lookupD (initG fns) k = [] := by
  induction fns with
  | nil => rfl
  | cons f rest ih =>
    have h1 : initG (f :: rest) = (f.fsym, []) :: initG rest := rfl
    rw [h1, show ((f.fsym, ([] : List Nat)) :: initG rest : VMap)
        = putA f.fsym [] (initG rest) from rfl, lookupD_putA]
    split
    · rfl
    · exact ih

theorem getE_mono (info : FnInfo) {m1 m2 : VMap} (h : mapLE m1 m2) :
    getEnclosingFuncVarUses info m1 ⊆ getEnclosingFuncVarUses info m2 := by
  intro a ha
  rw [getEnclosingFuncVarUses, mem_addAll] at ha ⊢
  rcases ha with ha | ha
  · simp at ha
  refine Or.inr ?_
  rcases List.mem_append.mp ha with ha | ha
  · exact List.mem_append_left _ ha
  · refine List.mem_append_right _ ?_
    rw [List.mem_flatten] at ha ⊢
    obtain ⟨s, hs, has⟩ := ha
    obtain ⟨gsym, hgmem, hgeq⟩ := List.mem_map.mp hs
    subst hgeq
    refine ⟨(lookupD m2 gsym).filter (fun v => v ∈ info.visible),
      List.mem_map_of_mem _ hgmem, ?_⟩
    rw [List.mem_filter] at has ⊢
    exact ⟨h gsym has.1, has.2⟩

theorem getE_nodup (info : FnInfo) (m : VMap) :
    (getEnclosingFuncVarUses info m).Nodup :=
  nodup_addAll _ [] List.nodup_nil

theorem getE_sub_universe {fns : List FnInfo} {info : FnInfo}
    (hin : info ∈ fns) (m : VMap) :
    getEnclosingFuncVarUses info m ⊆ universeVars fns := by
  intro a ha
  rw [getEnclosingFuncVarUses, mem_addAll] at ha
  rcases ha with ha | ha
  · simp at ha
  rw [universeVars, List.mem_flatten]
  refine ⟨info.direct ++ info.visible, List.mem_map_of_mem _ hin, ?_⟩
  rcases List.mem_append.mp ha with ha | ha
  · exact List.mem_append_left _ ha
  · refine List.mem_append_right _ ?_
    rw [List.mem_flatten] at ha
    obtain ⟨s, hs, has⟩ := ha
    obtain ⟨gsym, _, hgeq⟩ := List.mem_map.mp hs
    subst hgeq
    have := (List.mem_filter.mp has).2
    simpa using this

theorem roundStep_mono :
    ∀ (sub : List FnInfo) {i j : VMap}, mapLE i j →
      mapLE (roundStep sub i) (roundStep sub j) := by
  intro sub
  induction sub with
  | nil => intro i j h; exact h
  | cons info rest ih =>
    intro i j h
    have hstep : mapLE (findEnclScopeVarUses info i)
        (findEnclScopeVarUses info j) := by
      intro k
      unfold findEnclScopeVarUses
      rw [lookupD_putA, lookupD_putA]
      split
      · exact getE_mono info h
      · exact h k
    exact ih hstep

theorem roundStep_good {fns : List FnInfo} :
    ∀ (sub : List FnInfo), (∀ x ∈ sub, x ∈ fns) →
      ∀ {i : VMap}, goodI fns i → goodI fns (roundStep sub i) := by
  intro sub
  induction sub with
  | nil => intro _ i h; exact h
  | cons info rest ih =>
    intro hsub i h
    refine ih (fun x hx => hsub x (List.mem_cons_of_mem _ hx)) ?_
    intro k
    unfold findEnclScopeVarUses
    rw [lookupD_putA]
    split
    · exact ⟨getE_nodup info i,
        getE_sub_universe (hsub info (List.mem_cons_self _ _)) i⟩
    · exact h k

end CaptureAnalysis

namespace CaptureAnalysis

/-! ### The comparison phase -/

theorem comparePhase_eq_cons (info : FnInfo) (rest : List FnInfo)
    (g i : VMap) :
    comparePhase (info :: rest) g i
      = if (lookupD g info.fsym).length = (lookupD i info.fsym).length
        then comparePhase rest g i
        else ((comparePhase rest
            (putA info.fsym
              (addAll (lookupD g info.fsym) (lookupD i info.fsym)) g) i).1,
          true) := rfl

theorem comparePhase_lookup_other :
    ∀ (sub : List FnInfo) (g i : VMap) (k : Nat),
      (∀ info ∈ sub, info.fsym ≠ k) →
      lookupD (comparePhase sub g i).1 k = lookupD g k := by
  intro sub
  induction sub with
  | nil => intro g i k _; rfl
  | cons info rest ih =>
    intro g i k hne
    rw [comparePhase_eq_cons]
    split
    · exact ih g i k (fun x hx => hne x (List.mem_cons_of_mem _ hx))
    · rw [show (((comparePhase rest
            (putA info.fsym
              (addAll (lookupD g info.fsym) (lookupD i info.fsym)) g) i).1,
          true) : VMap × Bool).1
          = (comparePhase rest
            (putA info.fsym
              (addAll (lookupD g info.fsym) (lookupD i info.fsym)) g) i).1
        from rfl]
      rw [ih _ i k (fun x hx => hne x (List.mem_cons_of_mem _ hx)),
        lookupD_putA]
      rw [if_neg (hne info (List.mem_cons_self _ _))]

theorem comparePhase_lookup_mem :
    ∀ (sub : List FnInfo) (g : VMap) (i : VMap),
      (sub.map FnInfo.fsym).Nodup →
      ∀ info ∈ sub,
        lookupD (comparePhase sub g i).1 info.fsym
          = if (lookupD g info.fsym).length
                = (lookupD i info.fsym).length
            then lookupD g info.fsym
            else addAll (lookupD g info.fsym) (lookupD i info.fsym) := by
  intro sub
  induction sub with
  | nil => intro g i _ info hmem; simp at hmem
  | cons f0 rest ih =>
    intro g i hnd info hmem
    have hnd2 : (rest.map FnInfo.fsym).Nodup := (List.nodup_cons.mp hnd).2
    have hf0 : f0.fsym ∉ rest.map FnInfo.fsym := (List.nodup_cons.mp hnd).1
    rw [comparePhase_eq_cons]
    rcases List.mem_cons.mp hmem with heq | hmem2
    · subst heq
      split
      · rw [comparePhase_lookup_other rest g i info.fsym
          (fun x hx hxeq => hf0 (hxeq ▸ List.mem_map_of_mem _ hx))]
      · rw [show (((comparePhase rest
              (putA info.fsym
                (addAll (lookupD g info.fsym) (lookupD i info.fsym)) g)
              i).1, true) : VMap × Bool).1
            = (comparePhase rest
              (putA info.fsym
                (addAll (lookupD g info.fsym) (lookupD i info.fsym)) g)
              i).1 from rfl]
        rw [comparePhase_lookup_other rest _ i info.fsym
          (fun x hx hxeq => hf0 (hxeq ▸ List.mem_map_of_mem _ hx))]
        rw [lookupD_putA, if_pos rfl]
    · have hne : f0.fsym ≠ info.fsym := by
        intro hx
        exact hf0 (hx ▸ List.mem_map_of_mem _ hmem2)
      split
      · exact ih g i hnd2 info hmem2
      · rw [show (((comparePhase rest
              (putA f0.fsym
                (addAll (lookupD g f0.fsym) (lookupD i f0.fsym)) g)
              i).1, true) : VMap × Bool).1
            = (comparePhase rest
              (putA f0.fsym
                (addAll (lookupD g f0.fsym) (lookupD i f0.fsym)) g)
              i).1 from rfl]
        rw [ih _ i hnd2 info hmem2]
        simp only [lookupD_putA, if_neg hne]

theorem comparePhase_bool :
    ∀ (sub : List FnInfo) (g i : VMap),
      (comparePhase sub g i).2 = true
        ↔ ∃ info ∈ sub,
            (lookupD g info.fsym).length
              ≠ (lookupD i info.fsym).length := by
  intro sub
  induction sub with
  | nil => intro g i; simp [comparePhase]
  | cons f0 rest ih =>
    intro g i
    rw [comparePhase_eq_cons]
    split
    · rw [ih]
      constructor
      · rintro ⟨info, hmem, hne⟩
        exact ⟨info, List.mem_cons_of_mem _ hmem, hne⟩
      · rintro ⟨info, hmem, hne⟩
        rcases List.mem_cons.mp hmem with heq | hmem2
        · subst heq; exact absurd (by assumption) hne
        · exact ⟨info, hmem2, hne⟩
    · constructor
      · intro _
        exact ⟨f0, List.mem_cons_self _ _, by assumption⟩
      · intro _; rfl

end CaptureAnalysis

namespace CaptureAnalysis

/-! ### Termination of the do-while loop -/

theorem sum_map_le_mul {α : Type} (l : List α) (f : α → Nat) (c : Nat)
    (h : ∀ x ∈ l, f x ≤ c) : (l.map f).sum ≤ l.length * c := by
  induction l with
  | nil => simp
  | cons a rest ih =>
    have h1 := h a (List.mem_cons_self _ _)
    have h2 := ih (fun x hx => h x (List.mem_cons_of_mem _ hx))
    simp only [List.map_cons, List.sum_cons, List.length_cons, Nat.succ_mul]
    omega

theorem measureI_le {fns : List FnInfo} {i : VMap} (hg : goodI fns i) :
    measureI fns i ≤ fns.length * (universeVars fns).length := by
  unfold measureI
  refine sum_map_le_mul fns _ _ ?_
  intro f _
  exact ((hg f.fsym).1.subperm (hg f.fsym).2).length_le

/-- The loop invariant: the iteration map is duplicate-free and bounded
by the universe, another round can only grow it (the in-place chaotic
update is monotone), and the global map agrees with the iteration map
set-wise (same elements up to order, hence same length). -/
def Inv (fns : List FnInfo) (g i : VMap) : Prop :=
  goodI fns i ∧ mapLE i (roundStep fns i) ∧
  ∀ info ∈ fns, (lookupD g info.fsym).Nodup
    ∧ lookupD g info.fsym ⊆ lookupD i info.fsym
    ∧ (lookupD g info.fsym).length = (lookupD i info.fsym).length

theorem inv_step {fns : List FnInfo} (hnd : (fns.map FnInfo.fsym).Nodup)
    {g i : VMap} (hinv : Inv fns g i) :
    Inv fns (comparePhase fns g (roundStep fns i)).1 (roundStep fns i) := by
  obtain ⟨hgood, hgrow, hglob⟩ := hinv
  have hgood2 : goodI fns (roundStep fns i) :=
    roundStep_good fns (fun x hx => hx) hgood
  have hgrow2 : mapLE (roundStep fns i) (roundStep fns (roundStep fns i)) :=
    roundStep_mono fns hgrow
  refine ⟨hgood2, hgrow2, ?_⟩
  intro info hmem
  rw [comparePhase_lookup_mem fns g (roundStep fns i) hnd info hmem]
  have hgsub : lookupD g info.fsym ⊆ lookupD (roundStep fns i) info.fsym :=
    fun x hx => hgrow info.fsym ((hglob info hmem).2.1 hx)
  split
  · exact ⟨(hglob info hmem).1, hgsub, by assumption⟩
  · have hnodup := nodup_addAll (lookupD (roundStep fns i) info.fsym) _
      (hglob info hmem).1
    have hsub : addAll (lookupD g info.fsym)
        (lookupD (roundStep fns i) info.fsym)
        ⊆ lookupD (roundStep fns i) info.fsym := by
      intro x hx
      rcases (mem_addAll _ _ x).mp hx with hx2 | hx2
      · exact hgsub hx2
      · exact hx2
    have hsup : lookupD (roundStep fns i) info.fsym
        ⊆ addAll (lookupD g info.fsym)
            (lookupD (roundStep fns i) info.fsym) := by
      intro x hx
      exact (mem_addAll _ _ x).mpr (Or.inr hx)
    have hlen : (addAll (lookupD g info.fsym)
        (lookupD (roundStep fns i) info.fsym)).length
        = (lookupD (roundStep fns i) info.fsym).length :=
      Nat.le_antisymm (hnodup.subperm hsub).length_le
        (((hgood2 info.fsym).1.subperm hsup).length_le)
    exact ⟨hnodup, hsub, hlen⟩

theorem measure_lt {fns : List FnInfo} {g i : VMap} (hinv : Inv fns g i)
    (hch : (comparePhase fns g (roundStep fns i)).2 = true) :
    measureI fns i < measureI fns (roundStep fns i) := by
  obtain ⟨hgood, hgrow, hglob⟩ := hinv
  obtain ⟨info0, hmem0, hne0⟩ :=
    (comparePhase_bool fns g (roundStep fns i)).mp hch
  unfold measureI
  refine List.sum_lt_sum _ _ ?_ ?_
  · intro f _
    exact ((hgood f.fsym).1.subperm (hgrow f.fsym)).length_le
  · refine ⟨info0, hmem0, ?_⟩
    have hle := ((hgood info0.fsym).1.subperm (hgrow info0.fsym)).length_le
    have heq := (hglob info0 hmem0).2.2
    omega

theorem loop_exits (fns : List FnInfo)
    (hnd : (fns.map FnInfo.fsym).Nodup) :
    ∀ (fuel : Nat) (g i : VMap), Inv fns g i →
      fns.length * (universeVars fns).length < measureI fns i + fuel →
      (enclLoop fns fuel g i).2 = true := by
  intro fuel
  induction fuel with
  | zero =>
    intro g i hinv hlt
    exact absurd hlt (by have := measureI_le hinv.1; omega)
  | succ fuel ih =>
    intro g i hinv hlt
    have heq : enclLoop fns (fuel + 1) g i
        = if (comparePhase fns g (roundStep fns i)).2 = true
          then enclLoop fns fuel
            (comparePhase fns g (roundStep fns i)).1 (roundStep fns i)
          else ((comparePhase fns g (roundStep fns i)).1, true) := rfl
    rw [heq]
    by_cases hch : (comparePhase fns g (roundStep fns i)).2 = true
    · rw [if_pos hch]
      refine ih _ _ (inv_step hnd hinv) ?_
      have := measure_lt hinv hch
      omega
    · rw [if_neg hch]

/-- C4.  The Capture Analyzer's fixed-point loop always terminates: with
the fuel bound `number of nested functions * size of the variable
universe + 1`, the do-while of `enclVarUsesHelper` exits through its
no-change test (flag `true`), not by running out of fuel.  Each round
only adds variables (the iteration map is pointwise non-decreasing and
its duplicate-free sets are bounded by the finite universe), and the
loop exits once no capture set grows — even though growth is detected by
comparing set lengths rather than set membership, which is sound here
because the global set accumulated so far is always a subset of the
freshly computed one. -/
theorem enclVarUsesHelper_terminates (fns : List FnInfo)
    (hnd : (fns.map FnInfo.fsym).Nodup) :
    (enclLoop fns (fuelBound fns) (initG fns) []).2 = true := by
  refine loop_exits fns hnd (fuelBound fns) (initG fns) [] ⟨?_, ?_, ?_⟩ ?_
  · intro k
    exact ⟨List.nodup_nil, fun x hx => absurd hx (List.not_mem_nil x)⟩
  · intro k x hx
    exact absurd hx (List.not_mem_nil x)
  · intro info hmem
    rw [lookupD_initG]
    exact ⟨List.nodup_nil, fun x hx => hx, rfl⟩
  · unfold fuelBound
    omega

/-- Two mutually recursive nested functions, each capturing one outer
variable, with both variables visible to both: the spec's
mutual-recursion scenario. -/
def mutualFns : List FnInfo :=
  [FnInfo.mk 1 [10] [2] [10, 11], FnInfo.mk 2 [11] [1] [10, 11]]

theorem enclVarUsesHelper_terminates_witness :
    (List.map FnInfo.fsym mutualFns).Nodup
    ∧ (enclLoop mutualFns (fuelBound mutualFns)
        (initG mutualFns) []).2 = true :=
  ⟨by decide, enclVarUsesHelper_terminates mutualFns (by decide)⟩

end CaptureAnalysis
